import Mathlib

/-!
# BunnyLOD: the collapse-map resolver, the render pass, the vertex permutation
and the parameter animation

Shallow embedding of `src/bunnygut.cpp` (Stan Melax's polygon reduction demo).

* `std::vector<T>` is a `List T`; an access outside the bounds of a vector is
  undefined behaviour in C++ and is the fault `Fault.outOfBounds` here.
* `int` is `ℤ`.  The only arithmetic the embedded code does on an `int` is
  `renderpolycount++`, which is bounded by `tri.size()`.
* `float` is `ℚ` (exact arithmetic).
* `while(a>=mx)` in `Map` need not terminate, so `Map` takes a fuel: the number
  of loop iterations it may run.  Running out of fuel is `Fault.outOfFuel`.
* A failing `assert` is `Fault.assertFailed`.
* `Map` reports, next to its value, the indices at which it read
  `collapse_map`; the render pass reports the indices at which it read
  `collapse_map` and `vert` and the loop index of every triangle it emitted.
-/

namespace BunnyLOD

/-! ## Definitions -/

/-- Ways in which a run of the embedded code stops without a result. -/
inductive Fault where
  | outOfBounds
  | assertFailed
  | outOfFuel
  deriving DecidableEq

/-- Read `xs[i]` of a `std::vector` with an `int` index. -/
def vecGet {α : Type} (xs : List α) (i : Int) : Except Fault α :=
  if 0 ≤ i then
    match xs[i.toNat]? with
    | some x => .ok x
    | none => .error .outOfBounds
  else .error .outOfBounds

/-- Write `xs[i] = x` of a `std::vector` with an `int` index. -/
def vecSet {α : Type} (xs : List α) (i : Int) (x : α) : Except Fault (List α) :=
  if 0 ≤ i ∧ i.toNat < xs.length then .ok (xs.set i.toNat x) else .error .outOfBounds

/-- Modelled from the spec: `float3` is declared in `geometric.h`, which is not
among the sources; a 3D position, with exact rational coordinates. -/
structure float3 where
  x : ℚ
  y : ℚ
  z : ℚ
  deriving DecidableEq

namespace float3

/-- Modelled from the spec: `operator*` of `geometric.h` (not among the sources),
the scaling `a*s` of a position by a scalar. -/
def scale (a : float3) (s : ℚ) : float3 := ⟨a.x * s, a.y * s, a.z * s⟩

/-- Modelled from the spec: `operator+` of `geometric.h`, the sum `a+b`. -/
def add (a b : float3) : float3 := ⟨a.x + b.x, a.y + b.y, a.z + b.z⟩

/-- Modelled from the spec: `operator-` of `geometric.h`, the difference `a-b`. -/
def sub (a b : float3) : float3 := ⟨a.x - b.x, a.y - b.y, a.z - b.z⟩

/-- Modelled from the spec: `cross` of `geometric.h`, the cross product. -/
def cross (a b : float3) : float3 :=
  ⟨a.y * b.z - a.z * b.y, a.z * b.x - a.x * b.z, a.x * b.y - a.y * b.x⟩

/-- Modelled from the spec: `length` of `geometric.h` is the Euclidean length, which
is not rational; this is its square, and `0<length(a)` holds exactly when
`0 < lengthSq a`. -/
def lengthSq (a : float3) : ℚ := a.x * a.x + a.y * a.y + a.z * a.z

end float3

/-- Modelled from the spec: `tridata` is declared in `progmesh.h`, which is not
among the sources; a triangle holds exactly three vertex indices `v[0..2]`. -/
structure tridata where
  v0 : Int
  v1 : Int
  v2 : Int
  deriving DecidableEq

/-- The globals of `bunnygut.cpp` that the embedded functions read or write. -/
structure Globals where
  render_num : Int
  lodbase : ℚ
  morph : ℚ
  vert : List float3
  tri : List tridata
  collapse_map : List Int
  renderpolycount : Int
  deriving DecidableEq

/-- The loop `while(a>=mx) a=collapse_map[a];` of `Map`, run for at most `fuel`
iterations.  Returns the final `a` and the indices read, in order. -/
def MapLoop (collapse_map : List Int) (mx : Int) : Nat → Int → Except Fault (Int × List Int)
  | 0, a => if a ≥ mx then .error .outOfFuel else .ok (a, [])
  | fuel + 1, a =>
    if a ≥ mx then
      match vecGet collapse_map a with
      | .error e => .error e
      | .ok b =>
        match MapLoop collapse_map mx fuel b with
        | .error e => .error e
        | .ok (v, reads) => .ok (v, a :: reads)
    else .ok (a, [])

/-- `int Map(int a,int mx)` (lines 75-81). -/
def Map (fuel : Nat) (collapse_map : List Int) (a mx : Int) : Except Fault (Int × List Int) :=
  if mx ≤ 0 then .ok (0, []) else MapLoop collapse_map mx fuel a

/-- The cast `(int)x` of a `float`: truncation toward zero. -/
def truncToInt (q : ℚ) : Int := Int.tdiv q.num q.den

/-- One `glBegin(GL_POLYGON) ... glEnd()` block: the normal passed to
`glNormal3fv`, if any, and the three positions passed to `glVertex3fv`.  The
normal is recorded before `normalize`, which is not rational. -/
structure Polygon where
  normal : Option float3
  v0 : float3
  v1 : float3
  v2 : float3
  deriving DecidableEq

/-- What one iteration of the triangle loop does: the polygon it emits (`none`
when the iteration ends at `continue`) and the indices at which it read
`collapse_map` and `vert`. -/
structure TriStep where
  polygon : Option Polygon
  mapReads : List Int
  vertReads : List Int
  deriving DecidableEq

/-- What a whole render pass does: the polygons emitted, the loop index `i` of
each emitted triangle, and the indices at which `collapse_map` and `vert` were
read. -/
structure DrawLog where
  polygons : List Polygon
  drawn : List Nat
  mapReads : List Int
  vertReads : List Int
  deriving DecidableEq

/-- The expression `vert[p]*morph + vert[q]*(1-morph)` of lines 101-103. -/
def morphBlend (vp vq : float3) (morph : ℚ) : float3 :=
  (vp.scale morph).add (vq.scale (1 - morph))

/-- The flat face normal of lines 107-111: `cross(v1-v0,v2-v1)`, passed on only
when its length is positive. -/
def faceNormal (v0 v1 v2 : float3) : Option float3 :=
  if 0 < (float3.cross (v1.sub v0) (v2.sub v1)).lengthSq then
    some (float3.cross (v1.sub v0) (v2.sub v1))
  else none

/-- The polygon emitted by lines 101-115 from the six positions read. -/
def emitPolygon (a0 b0 a1 b1 a2 b2 : float3) (morph : ℚ) : Polygon :=
  ⟨faceNormal (morphBlend a0 b0 morph) (morphBlend a1 b1 morph) (morphBlend a2 b2 morph),
    morphBlend a0 b0 morph, morphBlend a1 b1 morph, morphBlend a2 b2 morph⟩

/-- The body of the loop of `DrawModelTriangles` (lines 87-115) for the
triangle `t`. -/
def drawTriangle (fuel : Nat) (g : Globals) (t : tridata) : Except Fault TriStep := do
  let (p0, r0) ← Map fuel g.collapse_map t.v0 g.render_num
  let (p1, r1) ← Map fuel g.collapse_map t.v1 g.render_num
  let (p2, r2) ← Map fuel g.collapse_map t.v2 g.render_num
  if p0 = p1 ∨ p1 = p2 ∨ p2 = p0 then
    pure ⟨none, r0 ++ r1 ++ r2, []⟩
  else do
    let (q0, s0) ← Map fuel g.collapse_map p0 (truncToInt (g.render_num * g.lodbase))
    let (q1, s1) ← Map fuel g.collapse_map p1 (truncToInt (g.render_num * g.lodbase))
    let (q2, s2) ← Map fuel g.collapse_map p2 (truncToInt (g.render_num * g.lodbase))
    let a0 ← vecGet g.vert p0
    let b0 ← vecGet g.vert q0
    let a1 ← vecGet g.vert p1
    let b1 ← vecGet g.vert q1
    let a2 ← vecGet g.vert p2
    let b2 ← vecGet g.vert q2
    pure ⟨some (emitPolygon a0 b0 a1 b1 a2 b2 g.morph),
      r0 ++ r1 ++ r2 ++ s0 ++ s1 ++ s2, [p0, q0, p1, q1, p2, q2]⟩

/-- The loop `for (i = 0; i<tri.size(); i++)` of `DrawModelTriangles` over the
triangles still to visit, with the current `i`, `renderpolycount` and log. -/
def drawLoop (fuel : Nat) (g : Globals) :
    List tridata → Nat → Int → DrawLog → Except Fault (Int × DrawLog)
  | [], _, rpc, log => .ok (rpc, log)
  | t :: rest, i, rpc, log => do
    let s ← drawTriangle fuel g t
    match s.polygon with
    | none =>
      drawLoop fuel g rest (i + 1) rpc
        ⟨log.polygons, log.drawn, log.mapReads ++ s.mapReads, log.vertReads ++ s.vertReads⟩
    | some poly =>
      drawLoop fuel g rest (i + 1) (rpc + 1)
        ⟨log.polygons ++ [poly], log.drawn ++ [i], log.mapReads ++ s.mapReads,
          log.vertReads ++ s.vertReads⟩

/-- `void DrawModelTriangles()` (lines 83-117). -/
def DrawModelTriangles (fuel : Nat) (g : Globals) : Except Fault (Globals × DrawLog) :=
  if g.collapse_map.length = 0 then .error .assertFailed
  else do
    let (rpc, log) ← drawLoop fuel g g.tri 0 0 ⟨[], [], [], []⟩
    pure (⟨g.render_num, g.lodbase, g.morph, g.vert, g.tri, g.collapse_map, rpc⟩, log)

/-- The loop `for(i=0;i<vert.size();i++) vert[permutation[i]]=temp_Array[i];`
(lines 128-130) over the values of `i` still to visit. -/
def storeVertices (permutation : List Int) (temp_Array : List float3) :
    List Nat → List float3 → Except Fault (List float3)
  | [], vert => .ok vert
  | i :: rest, vert => do
    let p ← vecGet permutation i
    let x ← vecGet temp_Array i
    let vert' ← vecSet vert p x
    storeVertices permutation temp_Array rest vert'

/-- The inner loop `for(int j=0;j<3;j++) tri[i].v[j] = permutation[tri[i].v[j]];`
(lines 133-135). -/
def permuteTriangle (permutation : List Int) (t : tridata) : Except Fault tridata := do
  let a ← vecGet permutation t.v0
  let b ← vecGet permutation t.v1
  let c ← vecGet permutation t.v2
  pure ⟨a, b, c⟩

/-- The loop `for (i = 0; i<tri.size(); i++)` of `PermuteVertices` (lines 132-136). -/
def permuteTriangles (permutation : List Int) : List tridata → Except Fault (List tridata)
  | [] => .ok []
  | t :: rest => do
    let t' ← permuteTriangle permutation t
    let rest' ← permuteTriangles permutation rest
    pure (t' :: rest')

/-- `void PermuteVertices(std::vector<int> &permutation)` (lines 120-137).
`temp_Array` is the copy of `vert` made by the first loop. -/
def PermuteVertices (permutation : List Int) (g : Globals) : Except Fault Globals :=
  if permutation.length ≠ g.vert.length then .error .assertFailed
  else do
    let vert' ← storeVertices permutation g.vert (List.range g.vert.length) g.vert
    let tri' ← permuteTriangles permutation g.tri
    pure ⟨g.render_num, g.lodbase, g.morph, vert', tri', g.collapse_map, g.renderpolycount⟩

/-! ### Notions of the specification -/

/-- The sequence `a, collapse_map[a], collapse_map[collapse_map[a]], ...`:
`chain collapse_map k a` is its element number `k`, and is `none` when one of
the `k` look-ups leaves the table. -/
def chain (collapse_map : List Int) : Nat → Int → Option Int
  | 0, a => some a
  | k + 1, a =>
    match vecGet collapse_map a with
    | .ok b => chain collapse_map k b
    | .error _ => none

/-- The Collapse Table invariant: index 0 is an index of the table (it is never
excluded), and the chain from every index of the table reaches index 0 through
indices of the table. -/
def CollapseTableInvariant (collapse_map : List Int) : Prop :=
  0 < collapse_map.length ∧
    ∀ i : Int, 0 ≤ i → i < collapse_map.length → ∃ k, chain collapse_map k i = some 0

/-- Every corner of every triangle is an index in `[0,N)`. -/
def CornersInRange (tri : List tridata) (N : Nat) : Prop :=
  ∀ t ∈ tri, (0 ≤ t.v0 ∧ t.v0 < N) ∧ (0 ≤ t.v1 ∧ t.v1 < N) ∧ (0 ≤ t.v2 ∧ t.v2 < N)

/-- A mesh with its collapse table: the vertex buffer and the collapse table have
the same length `N` and every triangle corner is an index in `[0,N)`. -/
def WellFormedMesh (g : Globals) : Prop :=
  g.vert.length = g.collapse_map.length ∧ CornersInRange g.tri g.collapse_map.length

/-- The value of `Map(a, mx)`, when the call returns. -/
def MapValue (fuel : Nat) (collapse_map : List Int) (a mx : Int) : Option Int :=
  match Map fuel collapse_map a mx with
  | .ok (v, _) => some v
  | .error _ => none

/-- The test of line 93, negated: the three corners of `t` resolve, at budget
`mx`, to three pairwise distinct vertices. -/
def nonDegenerate (fuel : Nat) (collapse_map : List Int) (mx : Int) (t : tridata) : Bool :=
  match MapValue fuel collapse_map t.v0 mx, MapValue fuel collapse_map t.v1 mx,
    MapValue fuel collapse_map t.v2 mx with
  | some p0, some p1, some p2 => !(p0 == p1 || p1 == p2 || p2 == p0)
  | _, _, _ => false

/-- The table of the comment above `Map`: `collapse_map[12]==7` and
`collapse_map[7]==3`. -/
def commentTable : List Int := [0, 0, 0, 0, 0, 0, 0, 3, 0, 0, 0, 0, 7]

/-- The tetrahedron of the specification's scenario: four vertices, four faces,
Collapse Table `[0,0,0,0]`. -/
def tetrahedron (render_num : Int) (renderpolycount : Int) : Globals :=
  { render_num := render_num, lodbase := 1 / 2, morph := 1,
    vert := [⟨0, 0, 0⟩, ⟨1, 0, 0⟩, ⟨0, 1, 0⟩, ⟨0, 0, 1⟩],
    tri := [⟨0, 1, 2⟩, ⟨0, 3, 1⟩, ⟨0, 2, 3⟩, ⟨1, 3, 2⟩],
    collapse_map := [0, 0, 0, 0], renderpolycount := renderpolycount }

/-- The array `permutation` is a bijection on `[0,N)`: it has `N` entries, each
in `[0,N)`, and no value occurs twice (so each of the `N` target indices is used
exactly once). -/
def BijectionOn (permutation : List Int) (N : Nat) : Prop :=
  permutation.length = N ∧ (∀ x ∈ permutation, 0 ≤ x ∧ x < N) ∧ permutation.Nodup

/-- The values of the array `permutation` lie in `[0,N)`. -/
def ValuesInRange (permutation : List Int) (N : Nat) : Prop :=
  ∀ x ∈ permutation, 0 ≤ x ∧ x < N

/-- A mesh of one vertex and one triangle, for a permutation array `[5]` of the
right length whose value is not an index of the vertex buffer. -/
def oneVertexMesh : Globals :=
  { render_num := 1, lodbase := 1 / 2, morph := 1, vert := [⟨0, 0, 0⟩], tri := [⟨0, 0, 0⟩],
    collapse_map := [0], renderpolycount := 0 }

/-- The globals with the detail budget `render_num` set to `mx`. -/
def withBudget (g : Globals) (mx : Int) : Globals :=
  ⟨mx, g.lodbase, g.morph, g.vert, g.tri, g.collapse_map, g.renderpolycount⟩

/-- The loop indices of the triangles, among those still to visit from index
`i` on, that satisfy `nd`. -/
def drawnFrom (nd : tridata → Bool) : List tridata → Nat → List Nat
  | [], _ => []
  | t :: rest, i => if nd t then i :: drawnFrom nd rest (i + 1) else drawnFrom nd rest (i + 1)

/-- Decision procedure for the Collapse Table invariant: the table is not empty
and from every index, index 0 is reached in fewer than `N` look-ups. -/
def checkInvariant (collapse_map : List Int) : Bool :=
  decide (0 < collapse_map.length) &&
    (List.range collapse_map.length).all fun i =>
      (List.range collapse_map.length).any fun k => chain collapse_map k (i : Int) == some 0

/-- Decision procedure for `CornersInRange`. -/
def checkCorners (tri : List tridata) (N : Nat) : Bool :=
  tri.all fun t =>
    decide ((0 ≤ t.v0 ∧ t.v0 < N) ∧ (0 ≤ t.v1 ∧ t.v1 < N) ∧ (0 ≤ t.v2 ∧ t.v2 < N))

/-- A table whose entries all lie in `[0,3)` but with the cycle
`collapse_map[1]==2`, `collapse_map[2]==1`. -/
def cycleTable : List Int := [0, 2, 1]

/-- A state that is no mesh: no vertex, a triangle whose corners are no indices,
the cyclic table `cycleTable`, and a negative budget. -/
def brokenMesh : Globals :=
  { render_num := -3, lodbase := 1 / 2, morph := 1, vert := [], tri := [⟨7, -2, 1⟩, ⟨1, 2, 0⟩],
    collapse_map := cycleTable, renderpolycount := 17 }

/-- The two positions blended for a corner `c` of a triangle that is drawn:
`vert[p]` and `vert[q]` for `p = Map(c, render_num)` and
`q = Map(p, (int)(render_num*lodbase))` (lines 87-89 and 97-103). -/
def cornerPositions (fuel : Nat) (g : Globals) (c : Int) : Except Fault (float3 × float3) := do
  let (p, _) ← Map fuel g.collapse_map c g.render_num
  let (q, _) ← Map fuel g.collapse_map p (truncToInt (g.render_num * g.lodbase))
  let a ← vecGet g.vert p
  let b ← vecGet g.vert q
  pure (a, b)

/-- The globals with the morph factor `morph` set to `m`. -/
def withMorph (g : Globals) (m : ℚ) : Globals :=
  ⟨g.render_num, g.lodbase, m, g.vert, g.tri, g.collapse_map, g.renderpolycount⟩

/-- The globals with the collapse table replaced by `table`. -/
def withTable (g : Globals) (table : List Int) : Globals :=
  ⟨g.render_num, g.lodbase, g.morph, g.vert, g.tri, table, g.renderpolycount⟩

/-- Every entry of the table after the first points to a smaller index:
`collapse_map[i]` lies in `[0,i)` for every `i` in `[1,N)`; `collapse_map[0]` is
arbitrary. -/
def CollapsesDownward (collapse_map : List Int) : Prop :=
  ∀ i : Int, 1 ≤ i → i < collapse_map.length →
    ∃ c, vecGet collapse_map i = .ok c ∧ 0 ≤ c ∧ c < i

/-- Decision procedure for `CollapsesDownward`. -/
def checkDownward (collapse_map : List Int) : Bool :=
  (List.range collapse_map.length).all fun i =>
    i == 0 ||
      match collapse_map[i]? with
      | some c => decide (0 ≤ c ∧ c < (i : Int))
      | none => false

/-- The keyframe record `struct keyframethings` (lines 223-229). -/
structure keyframethings where
  t : ℚ
  n : ℚ
  dn : ℚ
  m : ℚ
  dm : ℚ
  deriving DecidableEq

/-- The table `keys[]` (lines 229-244). -/
def keys : List keyframethings :=
  [⟨0, 1, 0, 1, 0⟩, ⟨2, 1, -1, 1, 0⟩, ⟨10, 0, 1, 1, 0⟩, ⟨18, 1, 0, 1, 0⟩, ⟨20, 1, 0, 1, -1⟩,
    ⟨24, 1 / 2, 0, 1, 0⟩, ⟨26, 1 / 2, 0, 1, -1⟩, ⟨30, 1 / 4, 0, 1, 0⟩, ⟨32, 1 / 4, 0, 1, -1⟩,
    ⟨36, 1 / 8, 0, 1, 0⟩, ⟨38, 1 / 4, 0, 0, 1⟩, ⟨42, 1 / 2, 0, 0, 1⟩, ⟨46, 1, 0, 0, 1⟩,
    ⟨50, 1, 0, 1, 0⟩]

/-- The loop `while(time>keys[k+1].t) k++;` (lines 250-252) over the entries
`keys[k+1], keys[k+2], ...` still ahead; running past the last entry is a read
outside the table. -/
def keyLoop (time : ℚ) : List keyframethings → Int → Except Fault Int
  | [], _ => .error .outOfBounds
  | key :: ahead, k => if time > key.t then keyLoop time ahead (k + 1) else .ok k

/-- `void AnimateParameters(float DeltaT)` (lines 245-259), over exact
arithmetic.  The static `time` is passed in and returned.  The quotient `interp`
is a division of rationals; every difference `keys[k+1].t-keys[k].t` of the
table is positive. -/
def AnimateParameters (DeltaT : ℚ) (time : ℚ) (g : Globals) : Except Fault (ℚ × Globals) := do
  let time1 := time + DeltaT
  let time2 := if time1 ≥ 50 then 0 else time1
  let k ← keyLoop time2 keys.tail 0
  let key0 ← vecGet keys k
  let key1 ← vecGet keys (k + 1)
  let interp := (time2 - key0.t) / (key1.t - key0.t)
  let render_num := truncToInt ((g.vert.length : ℚ) * (key0.n + interp * key0.dn))
  let morph := key0.m + interp * key0.dm
  let morph := if morph > 1 then 1 else morph
  let render_num := if render_num > (g.vert.length : Int) then (g.vert.length : Int)
    else render_num
  let render_num := if render_num < 0 then 0 else render_num
  pure (time2, ⟨render_num, g.lodbase, morph, g.vert, g.tri, g.collapse_map, g.renderpolycount⟩)

/-- `char *RenderModel(float DeltaT)` (lines 261-280): the parameters are
animated and then the triangles are drawn.  The calls that set up the graphics
state, `StatusDraw` and the status string are left out. -/
def RenderModel (fuel : Nat) (DeltaT : ℚ) (time : ℚ) (g : Globals) :
    Except Fault (ℚ × Globals × DrawLog) := do
  let (time', g1) ← AnimateParameters DeltaT time g
  let (g2, log) ← DrawModelTriangles fuel g1
  pure (time', g2, log)

/-! ## Theorems -/

theorem checkInvariant_sound (collapse_map : List Int) (h : checkInvariant collapse_map = true) :
    CollapseTableInvariant collapse_map := by
  simp only [checkInvariant, Bool.and_eq_true, decide_eq_true_eq, List.all_eq_true,
    List.any_eq_true, List.mem_range, beq_iff_eq] at h
  refine ⟨h.1, fun i h0 hN => ?_⟩
  obtain ⟨k, _, hk⟩ := h.2 i.toNat (by omega)
  rw [Int.toNat_of_nonneg h0] at hk
  exact ⟨k, hk⟩

theorem checkCorners_sound (tri : List tridata) (N : Nat) (h : checkCorners tri N = true) :
    CornersInRange tri N := by
  simp only [checkCorners, List.all_eq_true, decide_eq_true_eq] at h
  exact h

/-! ### Vector access -/

theorem vecGet_ok_iff {α : Type} (xs : List α) (i : Int) (x : α) :
    vecGet xs i = .ok x ↔ 0 ≤ i ∧ xs[i.toNat]? = some x := by
  unfold vecGet
  by_cases h : 0 ≤ i
  · simp only [h, if_true, true_and]
    cases hx : xs[i.toNat]? with
    | none => simp
    | some y => simp
  · simp [h]

theorem vecGet_range {α : Type} {xs : List α} {i : Int} {x : α} (h : vecGet xs i = .ok x) :
    0 ≤ i ∧ i < xs.length := by
  rw [vecGet_ok_iff] at h
  obtain ⟨h0, h1⟩ := h
  have := (List.getElem?_eq_some_iff.mp h1).1
  omega

theorem vecGet_ok_of_range {α : Type} (xs : List α) (i : Int) (h0 : 0 ≤ i)
    (h1 : i < xs.length) : ∃ x, vecGet xs i = .ok x := by
  have hlt : i.toNat < xs.length := by omega
  exact ⟨xs[i.toNat], (vecGet_ok_iff xs i _).mpr ⟨h0, List.getElem?_eq_getElem hlt⟩⟩

theorem vecGet_error_or_ok {α : Type} (xs : List α) (i : Int) :
    vecGet xs i = .error .outOfBounds ∨ ∃ x, vecGet xs i = .ok x := by
  unfold vecGet
  by_cases h : 0 ≤ i
  · simp only [h, if_true]
    cases xs[i.toNat]? with
    | none => simp
    | some y => simp
  · simp [h]

/-! ### The loop of `Map` -/

theorem MapLoop_lt (collapse_map : List Int) (mx : Int) (fuel : Nat) (a : Int) (h : a < mx) :
    MapLoop collapse_map mx fuel a = .ok (a, []) := by
  cases fuel with
  | zero => simp [MapLoop, not_le.mpr h]
  | succ n => simp [MapLoop, not_le.mpr h]

theorem MapLoop_zero_ge (collapse_map : List Int) (mx : Int) (a : Int) (h : mx ≤ a) :
    MapLoop collapse_map mx 0 a = .error .outOfFuel := by
  simp [MapLoop, h]

theorem MapLoop_succ_ge (collapse_map : List Int) (mx : Int) (fuel : Nat) (a b : Int)
    (h : mx ≤ a) (hb : vecGet collapse_map a = .ok b) :
    MapLoop collapse_map mx (fuel + 1) a =
      match MapLoop collapse_map mx fuel b with
      | .error e => .error e
      | .ok (v, reads) => .ok (v, a :: reads) := by
  simp only [MapLoop, ge_iff_le, h, if_true, hb]

theorem MapLoop_succ_ge_error (collapse_map : List Int) (mx : Int) (fuel : Nat) (a : Int)
    (h : mx ≤ a) (hb : vecGet collapse_map a = .error .outOfBounds) :
    MapLoop collapse_map mx (fuel + 1) a = .error .outOfBounds := by
  simp only [MapLoop, ge_iff_le, h, if_true, hb]

theorem chain_succ_ok (collapse_map : List Int) (k : Nat) (a b : Int)
    (hb : vecGet collapse_map a = .ok b) :
    chain collapse_map (k + 1) a = chain collapse_map k b := by
  simp [chain, hb]

theorem chain_succ_error (collapse_map : List Int) (k : Nat) (a : Int)
    (hb : vecGet collapse_map a = .error .outOfBounds) :
    chain collapse_map (k + 1) a = none := by
  simp [chain, hb]

theorem MapLoop_sound (collapse_map : List Int) (mx : Int) :
    ∀ (fuel : Nat) (a v : Int) (reads : List Int),
      MapLoop collapse_map mx fuel a = .ok (v, reads) →
      reads.length ≤ fuel ∧ chain collapse_map reads.length a = some v ∧ v < mx ∧
        ∀ j x, reads[j]? = some x → chain collapse_map j a = some x ∧ mx ≤ x := by
  intro fuel
  induction fuel with
  | zero =>
    intro a v reads h
    by_cases hge : mx ≤ a
    · rw [MapLoop_zero_ge _ _ _ hge] at h
      cases h
    · rw [MapLoop_lt _ _ _ _ (not_le.mp hge)] at h
      cases h
      exact ⟨le_refl _, rfl, not_le.mp hge, by simp⟩
  | succ n ih =>
    intro a v reads h
    by_cases hge : mx ≤ a
    · rcases vecGet_error_or_ok collapse_map a with he | ⟨b, hb⟩
      · rw [MapLoop_succ_ge_error _ _ _ _ hge he] at h
        cases h
      · rw [MapLoop_succ_ge _ _ _ _ _ hge hb] at h
        cases hM : MapLoop collapse_map mx n b with
        | error e =>
          rw [hM] at h
          cases h
        | ok r =>
          obtain ⟨w, rs⟩ := r
          rw [hM] at h
          cases h
          obtain ⟨h1, h2, h3, h4⟩ := ih b v rs hM
          refine ⟨by simpa using h1, ?_, h3, ?_⟩
          · rw [List.length_cons, chain_succ_ok _ _ _ _ hb]
            exact h2
          · intro j x hj
            cases j with
            | zero =>
              simp only [List.getElem?_cons_zero, Option.some.injEq] at hj
              subst hj
              exact ⟨rfl, hge⟩
            | succ m =>
              simp only [List.getElem?_cons_succ] at hj
              rw [chain_succ_ok _ _ _ _ hb]
              exact h4 m x hj
    · rw [MapLoop_lt _ _ _ _ (not_le.mp hge)] at h
      cases h
      exact ⟨Nat.zero_le _, rfl, not_le.mp hge, by simp⟩

theorem MapLoop_complete (collapse_map : List Int) (mx v : Int) (hv : v < mx) :
    ∀ (k : Nat) (a : Int) (fuel : Nat), k ≤ fuel →
      chain collapse_map k a = some v →
      (∀ j, j < k → ∃ x, chain collapse_map j a = some x ∧ mx ≤ x) →
      ∃ reads, MapLoop collapse_map mx fuel a = .ok (v, reads) ∧ reads.length = k := by
  intro k
  induction k with
  | zero =>
    intro a fuel _ hc _
    simp only [chain, Option.some.injEq] at hc
    subst hc
    exact ⟨[], MapLoop_lt _ _ _ _ hv, rfl⟩
  | succ m ih =>
    intro a fuel hfuel hc hbefore
    obtain ⟨x0, hx0, hge0⟩ := hbefore 0 (Nat.succ_pos m)
    simp only [chain, Option.some.injEq] at hx0
    subst hx0
    obtain ⟨f, rfl⟩ : ∃ f, fuel = f + 1 := ⟨fuel - 1, by omega⟩
    rcases vecGet_error_or_ok collapse_map a with he | ⟨b, hb⟩
    · rw [chain_succ_error _ _ _ he] at hc
      cases hc
    · rw [chain_succ_ok _ _ _ _ hb] at hc
      have hbefore' : ∀ j, j < m → ∃ x, chain collapse_map j b = some x ∧ mx ≤ x := by
        intro j hj
        have := hbefore (j + 1) (Nat.succ_lt_succ hj)
        rwa [chain_succ_ok _ _ _ _ hb] at this
      obtain ⟨rs, hrs, hlen⟩ := ih b f (by omega) hc hbefore'
      refine ⟨a :: rs, ?_, by simp [hlen]⟩
      rw [MapLoop_succ_ge _ _ _ _ _ hge0 hb, hrs]

theorem MapLoop_fuel_mono (collapse_map : List Int) (mx : Int) (fuel fuel' : Nat) (a v : Int)
    (reads : List Int) (hle : fuel ≤ fuel')
    (h : MapLoop collapse_map mx fuel a = .ok (v, reads)) :
    MapLoop collapse_map mx fuel' a = .ok (v, reads) := by
  obtain ⟨h1, h2, h3, h4⟩ := MapLoop_sound collapse_map mx fuel a v reads h
  have hbefore : ∀ j, j < reads.length → ∃ x, chain collapse_map j a = some x ∧ mx ≤ x := by
    intro j hj
    exact ⟨reads[j], h4 j reads[j] (List.getElem?_eq_getElem hj)⟩
  obtain ⟨rs, hrs, hlen⟩ :=
    MapLoop_complete collapse_map mx v h3 reads.length a fuel (by omega) h2 hbefore
  rw [h] at hrs
  cases hrs
  obtain ⟨rs', hrs', _⟩ :=
    MapLoop_complete collapse_map mx v h3 reads.length a fuel' (by omega) h2 hbefore
  obtain ⟨_, _, _, h4'⟩ := MapLoop_sound collapse_map mx fuel' a v rs' hrs'
  have : rs' = reads := by
    apply List.ext_getElem?
    intro j
    by_cases hj : j < reads.length
    · have hj' : j < rs'.length := by omega
      have e1 := (h4 j reads[j] (List.getElem?_eq_getElem hj)).1
      have e2 := (h4' j rs'[j] (List.getElem?_eq_getElem hj')).1
      rw [List.getElem?_eq_getElem hj, List.getElem?_eq_getElem hj']
      rw [e1] at e2
      exact e2.symm
    · rw [List.getElem?_eq_none (by omega), List.getElem?_eq_none (by omega)]
  rw [hrs', this]

theorem Map_pos (fuel : Nat) (collapse_map : List Int) (a mx : Int) (hmx : 0 < mx) :
    Map fuel collapse_map a mx = MapLoop collapse_map mx fuel a := by
  simp [Map, not_le.mpr hmx]

theorem Map_nonpos (fuel : Nat) (collapse_map : List Int) (a mx : Int) (hmx : mx ≤ 0) :
    Map fuel collapse_map a mx = .ok (0, []) := by
  simp [Map, hmx]

/-! ### Claims about `Map` -/

/-- C1: for a budget `mx > 0`, the walk of `Map(a, mx)` ends within `fuel`
iterations with the value `v` exactly when `v` is the first element of the
sequence `a, collapse_map[a], collapse_map[collapse_map[a]], ...` that is
`< mx`: `v` is element number `k` of the sequence for some `k ≤ fuel`, `v < mx`,
and every element before it exists and is `≥ mx`. -/
theorem Map_first_below (collapse_map : List Int) (fuel : Nat) (a mx v : Int) (hmx : 0 < mx) :
    (∃ reads, Map fuel collapse_map a mx = .ok (v, reads)) ↔
      ∃ k, k ≤ fuel ∧ chain collapse_map k a = some v ∧ v < mx ∧
        ∀ j, j < k → ∃ x, chain collapse_map j a = some x ∧ mx ≤ x := by
  rw [Map_pos _ _ _ _ hmx]
  constructor
  · rintro ⟨reads, h⟩
    obtain ⟨h1, h2, h3, h4⟩ := MapLoop_sound collapse_map mx fuel a v reads h
    exact ⟨reads.length, h1, h2, h3, fun j hj =>
      ⟨reads[j], h4 j reads[j] (List.getElem?_eq_getElem hj)⟩⟩
  · rintro ⟨k, hk, hc, hv, hbefore⟩
    obtain ⟨reads, h, _⟩ := MapLoop_complete collapse_map mx v hv k a fuel hk hc hbefore
    exact ⟨reads, h⟩

/-- Witness of C1 on the table of the source comment (`collapse_map[12]==7`,
`collapse_map[7]==3`): `Map(12,10)` is `7` and `Map(12,5)` is `3`, so the
triangle 1,3,12 becomes 1,3,7 at `mx = 10` and the degenerate 1,3,3 at `mx = 5`. -/
theorem Map_first_below_witness :
    (0 : Int) < 5 ∧
    ((∃ reads, Map 2 commentTable 12 5 = .ok (3, reads)) ↔
      ∃ k, k ≤ 2 ∧ chain commentTable k 12 = some 3 ∧ (3 : Int) < 5 ∧
        ∀ j, j < k → ∃ x, chain commentTable j 12 = some x ∧ (5 : Int) ≤ x) ∧
    Map 2 commentTable 12 10 = .ok (7, [12]) ∧ Map 2 commentTable 12 5 = .ok (3, [12, 7]) ∧
    Map 2 commentTable 1 10 = .ok (1, []) ∧ Map 2 commentTable 3 5 = .ok (3, []) :=
  ⟨by decide, Map_first_below commentTable 2 12 5 3 (by decide), rfl, rfl, rfl, rfl⟩

/-! ### Chains under the Collapse Table invariant -/

theorem chain_add (collapse_map : List Int) :
    ∀ (s m : Nat) (a : Int),
      chain collapse_map (s + m) a = (chain collapse_map s a).bind (chain collapse_map m) := by
  intro s
  induction s with
  | zero =>
    intro m a
    simp [chain]
  | succ n ih =>
    intro m a
    rw [Nat.succ_add]
    rcases vecGet_error_or_ok collapse_map a with he | ⟨b, hb⟩
    · rw [chain_succ_error _ _ _ he, chain_succ_error _ _ _ he]
      rfl
    · rw [chain_succ_ok _ _ _ _ hb, chain_succ_ok _ _ _ _ hb]
      exact ih m b

theorem chain_in_range (collapse_map : List Int) (hN : 0 < collapse_map.length) :
    ∀ (k : Nat) (a : Int), chain collapse_map k a = some 0 →
      ∀ j, j ≤ k → ∃ x, chain collapse_map j a = some x ∧ 0 ≤ x ∧ x < collapse_map.length := by
  intro k
  induction k with
  | zero =>
    intro a h j hj
    simp only [chain, Option.some.injEq] at h
    subst h
    have : j = 0 := by omega
    subst this
    exact ⟨0, rfl, le_refl _, by exact_mod_cast hN⟩
  | succ n ih =>
    intro a h j hj
    rcases vecGet_error_or_ok collapse_map a with he | ⟨b, hb⟩
    · rw [chain_succ_error _ _ _ he] at h
      cases h
    · rw [chain_succ_ok _ _ _ _ hb] at h
      cases j with
      | zero => exact ⟨a, rfl, vecGet_range hb⟩
      | succ m =>
        rw [chain_succ_ok _ _ _ _ hb]
        exact ih b h m (by omega)

/-- Pigeonhole: a chain that reaches index 0 reaches it in fewer than `N` steps. -/
theorem chain_short (collapse_map : List Int) (hN : 0 < collapse_map.length) (a : Int)
    (h : ∃ k, chain collapse_map k a = some 0) :
    ∃ k, k < collapse_map.length ∧ chain collapse_map k a = some 0 := by
  classical
  have hmin : ∀ m, m < Nat.find h → ¬ chain collapse_map m a = some 0 :=
    fun m hm => Nat.find_min h hm
  have hk := Nat.find_spec h
  generalize Nat.find h = k at hmin hk
  by_cases hlt : k < collapse_map.length
  · exact ⟨k, hlt, hk⟩
  · exfalso
    have hrange := chain_in_range collapse_map hN k a hk
    let f : Nat → Nat := fun j => ((chain collapse_map j a).getD 0).toNat
    have hmaps : ∀ j ∈ Finset.range (collapse_map.length + 1),
        f j ∈ Finset.range collapse_map.length := by
      intro j hj
      rw [Finset.mem_range] at hj
      obtain ⟨x, hx, hx0, hxN⟩ := hrange j (by omega)
      simp only [f, hx, Option.getD_some, Finset.mem_range]
      omega
    obtain ⟨s, hs, t, ht, hne, hst⟩ :=
      Finset.exists_ne_map_eq_of_card_lt_of_maps_to (by simp) hmaps
    rw [Finset.mem_range] at hs ht
    have key : ∀ s t : Nat, s < t → t ≤ k → f s = f t → False := by
      intro s t hlt' htk hst
      obtain ⟨x, hx, hx0, _⟩ := hrange s (by omega)
      obtain ⟨y, hy, hy0, _⟩ := hrange t htk
      simp only [f, hx, hy, Option.getD_some] at hst
      have hxy : x = y := by omega
      subst hxy
      have e1 : chain collapse_map (t + (k - t)) a = some 0 := by
        rw [Nat.add_sub_cancel' htk]
        exact hk
      rw [chain_add, hy] at e1
      have e2 : chain collapse_map (s + (k - t)) a = some 0 := by
        rw [chain_add, hx]
        exact e1
      exact hmin (s + (k - t)) (by omega) e2
    rcases Nat.lt_or_gt_of_ne hne with hlt' | hgt
    · exact key s t hlt' (by omega) hst
    · exact key t s hgt (by omega) hst.symm

theorem MapLoop_of_chain (collapse_map : List Int) (hN : 0 < collapse_map.length) (mx : Int)
    (hmx : 0 < mx) :
    ∀ (k : Nat) (a : Int), chain collapse_map k a = some 0 →
      ∀ fuel, k ≤ fuel → ∃ v reads, MapLoop collapse_map mx fuel a = .ok (v, reads) ∧
        0 ≤ v ∧ v < mx ∧ v < collapse_map.length ∧ reads.length ≤ k ∧
        ∀ r ∈ reads, mx ≤ r ∧ r < collapse_map.length := by
  intro k
  induction k with
  | zero =>
    intro a h fuel _
    simp only [chain, Option.some.injEq] at h
    subst h
    exact ⟨0, [], MapLoop_lt _ _ _ _ hmx, le_refl _, hmx, by exact_mod_cast hN, le_refl _,
      by simp⟩
  | succ n ih =>
    intro a h fuel hfuel
    obtain ⟨x, hx, hx0, hxN⟩ := chain_in_range collapse_map hN (n + 1) a h 0 (Nat.zero_le _)
    simp only [chain, Option.some.injEq] at hx
    subst hx
    by_cases hge : mx ≤ a
    · obtain ⟨f, rfl⟩ : ∃ f, fuel = f + 1 := ⟨fuel - 1, by omega⟩
      rcases vecGet_error_or_ok collapse_map a with he | ⟨b, hb⟩
      · rw [chain_succ_error _ _ _ he] at h
        cases h
      · rw [chain_succ_ok _ _ _ _ hb] at h
        obtain ⟨v, rs, hrs, h1, h2, h3, h4, h5⟩ := ih b h f (by omega)
        refine ⟨v, a :: rs, ?_, h1, h2, h3, by simpa using h4, ?_⟩
        · rw [MapLoop_succ_ge _ _ _ _ _ hge hb, hrs]
        · intro r hr
          rcases List.mem_cons.mp hr with rfl | hr'
          · exact ⟨hge, hxN⟩
          · exact h5 r hr'
    · exact ⟨a, [], MapLoop_lt _ _ _ _ (not_le.mp hge), hx0, not_le.mp hge, hxN,
        Nat.zero_le _, by simp⟩

/-- Under the Collapse Table invariant `Map` returns from every index of the
table, for every budget, once it may run `N` iterations. -/
theorem Map_total (collapse_map : List Int) (hinv : CollapseTableInvariant collapse_map)
    (a mx : Int) (h0 : 0 ≤ a) (hN : a < collapse_map.length) (fuel : Nat)
    (hfuel : collapse_map.length ≤ fuel) :
    ∃ v reads, Map fuel collapse_map a mx = .ok (v, reads) ∧
      0 ≤ v ∧ v < collapse_map.length ∧ (0 < mx → v < mx) ∧ (mx ≤ 0 → v = 0 ∧ reads = []) ∧
      reads.length < collapse_map.length ∧ ∀ r ∈ reads, mx ≤ r ∧ r < collapse_map.length := by
  obtain ⟨hpos, hreach⟩ := hinv
  by_cases hmx : 0 < mx
  · obtain ⟨k, hk, hc⟩ := chain_short collapse_map hpos a (hreach a h0 hN)
    obtain ⟨v, rs, hrs, h1, h2, h3, h4, h5⟩ :=
      MapLoop_of_chain collapse_map hpos mx hmx k a hc fuel (by omega)
    refine ⟨v, rs, ?_, h1, h3, fun _ => h2, fun h => absurd hmx (not_lt.mpr h), by omega, h5⟩
    rw [Map_pos _ _ _ _ hmx, hrs]
  · refine ⟨0, [], Map_nonpos _ _ _ _ (not_lt.mp hmx), le_refl _, by exact_mod_cast hpos,
      fun h => absurd h hmx, fun _ => ⟨rfl, rfl⟩, by simpa using hpos, by simp⟩

theorem Map_fuel_mono (collapse_map : List Int) (mx : Int) (fuel fuel' : Nat) (a v : Int)
    (reads : List Int) (hle : fuel ≤ fuel')
    (h : Map fuel collapse_map a mx = .ok (v, reads)) :
    Map fuel' collapse_map a mx = .ok (v, reads) := by
  by_cases hmx : 0 < mx
  · rw [Map_pos _ _ _ _ hmx] at h ⊢
    exact MapLoop_fuel_mono _ _ _ _ _ _ _ hle h
  · rw [Map_nonpos _ _ _ _ (not_lt.mp hmx)] at h ⊢
    exact h

/-! ### Resolving in two steps -/

theorem MapLoop_comp (collapse_map : List Int) (mx1 mx2 : Int) (hle : mx1 ≤ mx2) :
    ∀ (fuel : Nat) (a v2 : Int) (r2 : List Int),
      MapLoop collapse_map mx2 fuel a = .ok (v2, r2) →
      ∀ (fuel1 : Nat) (v1 : Int) (r1 : List Int),
        MapLoop collapse_map mx1 fuel1 a = .ok (v1, r1) →
        ∃ r, MapLoop collapse_map mx1 fuel1 v2 = .ok (v1, r) := by
  intro fuel
  induction fuel with
  | zero =>
    intro a v2 r2 h fuel1 v1 r1 h1
    by_cases hge : mx2 ≤ a
    · rw [MapLoop_zero_ge _ _ _ hge] at h
      cases h
    · rw [MapLoop_lt _ _ _ _ (not_le.mp hge)] at h
      cases h
      exact ⟨r1, h1⟩
  | succ n ih =>
    intro a v2 r2 h fuel1 v1 r1 h1
    by_cases hge : mx2 ≤ a
    · rcases vecGet_error_or_ok collapse_map a with he | ⟨b, hb⟩
      · rw [MapLoop_succ_ge_error _ _ _ _ hge he] at h
        cases h
      · rw [MapLoop_succ_ge _ _ _ _ _ hge hb] at h
        cases hM : MapLoop collapse_map mx2 n b with
        | error e =>
          rw [hM] at h
          cases h
        | ok r =>
          obtain ⟨w, rs⟩ := r
          rw [hM] at h
          cases h
          cases fuel1 with
          | zero =>
            rw [MapLoop_zero_ge _ _ _ (le_trans hle hge)] at h1
            cases h1
          | succ f1 =>
            rw [MapLoop_succ_ge _ _ _ _ _ (le_trans hle hge) hb] at h1
            cases hM1 : MapLoop collapse_map mx1 f1 b with
            | error e =>
              rw [hM1] at h1
              cases h1
            | ok r' =>
              obtain ⟨w1, rs1⟩ := r'
              rw [hM1] at h1
              cases h1
              obtain ⟨r, hr⟩ := ih b v2 rs hM f1 v1 rs1 hM1
              exact ⟨r, MapLoop_fuel_mono _ _ _ _ _ _ _ (Nat.le_succ f1) hr⟩
    · rw [MapLoop_lt _ _ _ _ (not_le.mp hge)] at h
      cases h
      exact ⟨r1, h1⟩

/-- Resolving at a finer budget first does not change the result at a coarser
budget. -/
theorem Map_comp (collapse_map : List Int) (mx1 mx2 : Int) (hle : mx1 ≤ mx2)
    (fuel : Nat) (a v2 : Int) (r2 : List Int)
    (h : Map fuel collapse_map a mx2 = .ok (v2, r2))
    (fuel1 : Nat) (v1 : Int) (r1 : List Int)
    (h1 : Map fuel1 collapse_map a mx1 = .ok (v1, r1)) :
    ∃ r, Map fuel1 collapse_map v2 mx1 = .ok (v1, r) := by
  by_cases hmx : 0 < mx1
  · rw [Map_pos _ _ _ _ hmx] at h1 ⊢
    rw [Map_pos _ _ _ _ (lt_of_lt_of_le hmx hle)] at h
    exact MapLoop_comp collapse_map mx1 mx2 hle fuel a v2 r2 h fuel1 v1 r1 h1
  · rw [Map_nonpos _ _ _ _ (not_lt.mp hmx)] at h1 ⊢
    cases h1
    exact ⟨[], rfl⟩

theorem MapValue_eq_some (fuel : Nat) (collapse_map : List Int) (a mx v : Int) :
    MapValue fuel collapse_map a mx = some v ↔
      ∃ reads, Map fuel collapse_map a mx = .ok (v, reads) := by
  unfold MapValue
  cases h : Map fuel collapse_map a mx with
  | error e => simp
  | ok r =>
    obtain ⟨w, rs⟩ := r
    simp

/-- Two vertices that resolve to the same vertex at a budget resolve to the same
vertex at every coarser budget. -/
theorem MapValue_coalesce (collapse_map : List Int) (mx1 mx2 : Int) (hle : mx1 ≤ mx2)
    (fuel : Nat) (a b v va vb : Int)
    (ha2 : MapValue fuel collapse_map a mx2 = some v)
    (hb2 : MapValue fuel collapse_map b mx2 = some v)
    (ha1 : MapValue fuel collapse_map a mx1 = some va)
    (hb1 : MapValue fuel collapse_map b mx1 = some vb) : va = vb := by
  rw [MapValue_eq_some] at ha2 hb2 ha1 hb1
  obtain ⟨ra2, ha2⟩ := ha2
  obtain ⟨rb2, hb2⟩ := hb2
  obtain ⟨ra1, ha1⟩ := ha1
  obtain ⟨rb1, hb1⟩ := hb1
  obtain ⟨r, hr⟩ := Map_comp collapse_map mx1 mx2 hle fuel a v ra2 ha2 fuel va ra1 ha1
  obtain ⟨r', hr'⟩ := Map_comp collapse_map mx1 mx2 hle fuel b v rb2 hb2 fuel vb rb1 hb1
  rw [hr] at hr'
  cases hr'
  rfl

/-- C2: under the Collapse Table invariant, for every index `i` of the table
and every integer budget `mx`, `Map(i, mx)` returns a value that lies in
`[0, mx)` when `mx > 0` and is `0` when `mx ≤ 0`. -/
theorem Map_range (collapse_map : List Int) (hinv : CollapseTableInvariant collapse_map)
    (i mx : Int) (h0 : 0 ≤ i) (hN : i < collapse_map.length) (fuel : Nat)
    (hfuel : collapse_map.length ≤ fuel) :
    ∃ v reads, Map fuel collapse_map i mx = .ok (v, reads) ∧
      (0 < mx → 0 ≤ v ∧ v < mx) ∧ (mx ≤ 0 → v = 0) := by
  obtain ⟨v, reads, h, h1, _, h3, h4, _, _⟩ :=
    Map_total collapse_map hinv i mx h0 hN fuel hfuel
  exact ⟨v, reads, h, fun hmx => ⟨h1, h3 hmx⟩, fun hmx => (h4 hmx).1⟩

/-- C3: under the Collapse Table invariant, for every index of the table and
every integer budget (also `≤ 0` or `> N`), the loop of `Map` terminates after at
most `N` table look-ups: with `N` iterations allowed, and with any larger
allowance, `Map` returns the same value after the same look-ups, at most `N` of
them. -/
theorem Map_terminates (collapse_map : List Int) (hinv : CollapseTableInvariant collapse_map)
    (vertexIndex budget : Int) (h0 : 0 ≤ vertexIndex)
    (hN : vertexIndex < collapse_map.length) :
    ∃ v reads, reads.length ≤ collapse_map.length ∧
      ∀ fuel, collapse_map.length ≤ fuel →
        Map fuel collapse_map vertexIndex budget = .ok (v, reads) := by
  obtain ⟨v, reads, h, _, _, _, _, h5, _⟩ :=
    Map_total collapse_map hinv vertexIndex budget h0 hN collapse_map.length (le_refl _)
  exact ⟨v, reads, by omega, fun fuel hfuel => Map_fuel_mono _ _ _ _ _ _ _ hfuel h⟩

/-- C10: for a table of length `N ≥ 1`, whatever its contents, and every `i` in
`[0,N)`, `Map(i, N)` is `i` and reads no table entry (no loop iteration runs). -/
theorem Map_full_budget (collapse_map : List Int) (fuel : Nat) (i : Int)
    (hlen : 1 ≤ collapse_map.length) (_h0 : 0 ≤ i) (hN : i < collapse_map.length) :
    Map fuel collapse_map i collapse_map.length = .ok (i, []) := by
  have hpos : (0 : Int) < collapse_map.length := by exact_mod_cast hlen
  rw [Map_pos _ _ _ _ hpos]
  exact MapLoop_lt _ _ _ _ hN

/-- Witness of C2 on the table of the source comment. -/
theorem Map_range_witness :
    CollapseTableInvariant commentTable ∧ (0 : Int) ≤ 12 ∧ (12 : Int) < commentTable.length ∧
    commentTable.length ≤ 13 ∧
    ∃ v reads, Map 13 commentTable 12 5 = .ok (v, reads) ∧
      ((0 : Int) < 5 → 0 ≤ v ∧ v < 5) ∧ ((5 : Int) ≤ 0 → v = 0) :=
  ⟨checkInvariant_sound _ (by decide), by decide, by decide, by decide,
    Map_range commentTable (checkInvariant_sound _ (by decide)) 12 5 (by decide) (by decide) 13
      (by decide)⟩

/-- Witness of C3 on the table of the source comment. -/
theorem Map_terminates_witness :
    CollapseTableInvariant commentTable ∧ (0 : Int) ≤ 12 ∧ (12 : Int) < commentTable.length ∧
    ∃ v reads, reads.length ≤ commentTable.length ∧
      ∀ fuel, commentTable.length ≤ fuel → Map fuel commentTable 12 (-4) = .ok (v, reads) :=
  ⟨checkInvariant_sound _ (by decide), by decide, by decide,
    Map_terminates commentTable (checkInvariant_sound _ (by decide)) 12 (-4) (by decide)
      (by decide)⟩

/-- Witness of C10: at the full budget 13 of the table of the source comment,
vertex 12 resolves to itself, with no loop iteration allowed. -/
theorem Map_full_budget_witness :
    1 ≤ commentTable.length ∧ (0 : Int) ≤ 12 ∧ (12 : Int) < commentTable.length ∧
    Map 0 commentTable 12 commentTable.length = .ok (12, []) :=
  ⟨by decide, by decide, by decide,
    Map_full_budget commentTable 0 12 (by decide) (by decide) (by decide)⟩

/-! ### The render pass -/

theorem drawTriangle_skip (fuel : Nat) (g : Globals) (t : tridata) (p0 p1 p2 : Int)
    (r0 r1 r2 : List Int)
    (hp0 : Map fuel g.collapse_map t.v0 g.render_num = .ok (p0, r0))
    (hp1 : Map fuel g.collapse_map t.v1 g.render_num = .ok (p1, r1))
    (hp2 : Map fuel g.collapse_map t.v2 g.render_num = .ok (p2, r2))
    (hdeg : p0 = p1 ∨ p1 = p2 ∨ p2 = p0) :
    drawTriangle fuel g t = .ok ⟨none, r0 ++ r1 ++ r2, []⟩ := by
  simp only [drawTriangle, hp0, hp1, hp2, bind, Except.bind, hdeg, if_true]
  rfl

theorem drawTriangle_emit (fuel : Nat) (g : Globals) (t : tridata) (p0 p1 p2 q0 q1 q2 : Int)
    (r0 r1 r2 s0 s1 s2 : List Int) (a0 b0 a1 b1 a2 b2 : float3)
    (hp0 : Map fuel g.collapse_map t.v0 g.render_num = .ok (p0, r0))
    (hp1 : Map fuel g.collapse_map t.v1 g.render_num = .ok (p1, r1))
    (hp2 : Map fuel g.collapse_map t.v2 g.render_num = .ok (p2, r2))
    (hdeg : ¬(p0 = p1 ∨ p1 = p2 ∨ p2 = p0))
    (hq0 : Map fuel g.collapse_map p0 (truncToInt (g.render_num * g.lodbase)) = .ok (q0, s0))
    (hq1 : Map fuel g.collapse_map p1 (truncToInt (g.render_num * g.lodbase)) = .ok (q1, s1))
    (hq2 : Map fuel g.collapse_map p2 (truncToInt (g.render_num * g.lodbase)) = .ok (q2, s2))
    (ha0 : vecGet g.vert p0 = .ok a0) (hb0 : vecGet g.vert q0 = .ok b0)
    (ha1 : vecGet g.vert p1 = .ok a1) (hb1 : vecGet g.vert q1 = .ok b1)
    (ha2 : vecGet g.vert p2 = .ok a2) (hb2 : vecGet g.vert q2 = .ok b2) :
    drawTriangle fuel g t =
      .ok ⟨some (emitPolygon a0 b0 a1 b1 a2 b2 g.morph),
        r0 ++ r1 ++ r2 ++ s0 ++ s1 ++ s2, [p0, q0, p1, q1, p2, q2]⟩ := by
  simp only [drawTriangle, hp0, hp1, hp2, bind, Except.bind, hdeg, if_false, hq0, hq1, hq2,
    ha0, hb0, ha1, hb1, ha2, hb2]
  rfl

theorem nonDegenerate_eq (fuel : Nat) (collapse_map : List Int) (mx : Int) (t : tridata)
    (p0 p1 p2 : Int) (r0 r1 r2 : List Int)
    (hp0 : Map fuel collapse_map t.v0 mx = .ok (p0, r0))
    (hp1 : Map fuel collapse_map t.v1 mx = .ok (p1, r1))
    (hp2 : Map fuel collapse_map t.v2 mx = .ok (p2, r2)) :
    nonDegenerate fuel collapse_map mx t = true ↔ ¬(p0 = p1 ∨ p1 = p2 ∨ p2 = p0) := by
  simp only [nonDegenerate, MapValue, hp0, hp1, hp2]
  simp [and_assoc]

/-- Under the invariant every iteration of the triangle loop completes, and it
emits a polygon exactly when the triangle is not degenerate at the budget. -/
theorem drawTriangle_ok (fuel : Nat) (g : Globals) (t : tridata)
    (hinv : CollapseTableInvariant g.collapse_map) (hvert : g.vert.length = g.collapse_map.length)
    (hfuel : g.collapse_map.length ≤ fuel)
    (ht : (0 ≤ t.v0 ∧ t.v0 < g.collapse_map.length) ∧ (0 ≤ t.v1 ∧ t.v1 < g.collapse_map.length) ∧
      (0 ≤ t.v2 ∧ t.v2 < g.collapse_map.length)) :
    ∃ s, drawTriangle fuel g t = .ok s ∧
      (s.polygon.isSome = true ↔ nonDegenerate fuel g.collapse_map g.render_num t = true) := by
  obtain ⟨⟨a0, a1⟩, ⟨b0, b1⟩, ⟨c0, c1⟩⟩ := ht
  obtain ⟨p0, r0, hp0, hp0a, hp0b, _⟩ :=
    Map_total g.collapse_map hinv t.v0 g.render_num a0 a1 fuel hfuel
  obtain ⟨p1, r1, hp1, hp1a, hp1b, _⟩ :=
    Map_total g.collapse_map hinv t.v1 g.render_num b0 b1 fuel hfuel
  obtain ⟨p2, r2, hp2, hp2a, hp2b, _⟩ :=
    Map_total g.collapse_map hinv t.v2 g.render_num c0 c1 fuel hfuel
  have hnd := nonDegenerate_eq fuel g.collapse_map g.render_num t p0 p1 p2 r0 r1 r2 hp0 hp1 hp2
  by_cases hdeg : p0 = p1 ∨ p1 = p2 ∨ p2 = p0
  · refine ⟨_, drawTriangle_skip fuel g t p0 p1 p2 r0 r1 r2 hp0 hp1 hp2 hdeg, ?_⟩
    rw [hnd]
    simp [hdeg]
  · obtain ⟨q0, s0, hq0, hq0a, hq0b, _⟩ :=
      Map_total g.collapse_map hinv p0 (truncToInt (g.render_num * g.lodbase)) hp0a hp0b fuel hfuel
    obtain ⟨q1, s1, hq1, hq1a, hq1b, _⟩ :=
      Map_total g.collapse_map hinv p1 (truncToInt (g.render_num * g.lodbase)) hp1a hp1b fuel hfuel
    obtain ⟨q2, s2, hq2, hq2a, hq2b, _⟩ :=
      Map_total g.collapse_map hinv p2 (truncToInt (g.render_num * g.lodbase)) hp2a hp2b fuel hfuel
    obtain ⟨x0, hx0⟩ := vecGet_ok_of_range g.vert p0 hp0a (by omega)
    obtain ⟨y0, hy0⟩ := vecGet_ok_of_range g.vert q0 hq0a (by omega)
    obtain ⟨x1, hx1⟩ := vecGet_ok_of_range g.vert p1 hp1a (by omega)
    obtain ⟨y1, hy1⟩ := vecGet_ok_of_range g.vert q1 hq1a (by omega)
    obtain ⟨x2, hx2⟩ := vecGet_ok_of_range g.vert p2 hp2a (by omega)
    obtain ⟨y2, hy2⟩ := vecGet_ok_of_range g.vert q2 hq2a (by omega)
    refine ⟨_, drawTriangle_emit fuel g t p0 p1 p2 q0 q1 q2 r0 r1 r2 s0 s1 s2 x0 y0 x1 y1 x2 y2
      hp0 hp1 hp2 hdeg hq0 hq1 hq2 hx0 hy0 hx1 hy1 hx2 hy2, ?_⟩
    rw [hnd]
    simp [hdeg]

theorem drawnFrom_length (nd : tridata → Bool) :
    ∀ (tris : List tridata) (i : Nat), (drawnFrom nd tris i).length = tris.countP nd := by
  intro tris
  induction tris with
  | nil => intro i; rfl
  | cons t rest ih =>
    intro i
    by_cases h : nd t = true
    · simp [drawnFrom, h, ih, List.countP_cons_of_pos]
    · simp [drawnFrom, h, ih]

theorem drawnFrom_mem (nd : tridata → Bool) :
    ∀ (tris : List tridata) (i j : Nat),
      j ∈ drawnFrom nd tris i ↔ i ≤ j ∧ ∃ t, tris[j - i]? = some t ∧ nd t = true := by
  intro tris
  induction tris with
  | nil => intro i j; simp [drawnFrom]
  | cons t rest ih =>
    intro i j
    have hrest : j ∈ drawnFrom nd rest (i + 1) ↔
        i < j ∧ ∃ u, (t :: rest)[j - i]? = some u ∧ nd u = true := by
      rw [ih (i + 1) j]
      constructor
      · rintro ⟨hle, u, hu, hnd⟩
        refine ⟨hle, u, ?_, hnd⟩
        have : j - i = (j - (i + 1)) + 1 := by omega
        rw [this, List.getElem?_cons_succ]
        exact hu
      · rintro ⟨hlt, u, hu, hnd⟩
        refine ⟨hlt, u, ?_, hnd⟩
        have : j - i = (j - (i + 1)) + 1 := by omega
        rw [this, List.getElem?_cons_succ] at hu
        exact hu
    by_cases h : nd t = true
    · simp only [drawnFrom, h, if_true, List.mem_cons, hrest]
      constructor
      · rintro (rfl | ⟨hlt, hu⟩)
        · exact ⟨le_refl _, t, by simp, h⟩
        · exact ⟨le_of_lt hlt, hu⟩
      · rintro ⟨hle, u, hu, hnd⟩
        rcases Nat.eq_or_lt_of_le hle with rfl | hlt
        · exact Or.inl rfl
        · exact Or.inr ⟨hlt, u, hu, hnd⟩
    · have h' : nd t = false := by simpa using h
      simp only [drawnFrom, h', Bool.false_eq_true, if_false, hrest]
      constructor
      · rintro ⟨hlt, hu⟩
        exact ⟨le_of_lt hlt, hu⟩
      · rintro ⟨hle, u, hu, hnd⟩
        rcases Nat.eq_or_lt_of_le hle with rfl | hlt
        · simp only [Nat.sub_self, List.getElem?_cons_zero, Option.some.injEq] at hu
          subst hu
          exact absurd hnd h
        · exact ⟨hlt, u, hu, hnd⟩

theorem drawLoop_ok (fuel : Nat) (g : Globals)
    (hinv : CollapseTableInvariant g.collapse_map) (hvert : g.vert.length = g.collapse_map.length)
    (hfuel : g.collapse_map.length ≤ fuel) :
    ∀ (tris : List tridata) (i : Nat) (rpc : Int) (log : DrawLog),
      CornersInRange tris g.collapse_map.length →
      ∃ rpc' log', drawLoop fuel g tris i rpc log = .ok (rpc', log') ∧
        rpc' = rpc + tris.countP (nonDegenerate fuel g.collapse_map g.render_num) ∧
        log'.drawn =
          log.drawn ++ drawnFrom (nonDegenerate fuel g.collapse_map g.render_num) tris i ∧
        log'.polygons.length =
          log.polygons.length + tris.countP (nonDegenerate fuel g.collapse_map g.render_num) := by
  intro tris
  induction tris with
  | nil =>
    intro i rpc log _
    exact ⟨rpc, log, rfl, by simp, by simp [drawnFrom], by simp⟩
  | cons t rest ih =>
    intro i rpc log hc
    have hrest : CornersInRange rest g.collapse_map.length :=
      fun u hu => hc u (List.mem_cons_of_mem _ hu)
    obtain ⟨s, hs, hsome⟩ :=
      drawTriangle_ok fuel g t hinv hvert hfuel (hc t (List.mem_cons_self _ _))
    cases hpoly : s.polygon with
    | none =>
      have hnd : nonDegenerate fuel g.collapse_map g.render_num t = false := by
        rw [hpoly] at hsome
        cases hv : nonDegenerate fuel g.collapse_map g.render_num t with
        | false => rfl
        | true => exact absurd (hsome.mpr hv) (by simp)
      obtain ⟨rpc', log', h1, h2, h3, h4⟩ := ih (i + 1) rpc
        ⟨log.polygons, log.drawn, log.mapReads ++ s.mapReads, log.vertReads ++ s.vertReads⟩ hrest
      refine ⟨rpc', log', ?_, ?_, ?_, ?_⟩
      · simp only [drawLoop, hs, bind, Except.bind, hpoly]
        exact h1
      · simp [h2, hnd]
      · simp [h3, drawnFrom, hnd]
      · simp [h4, hnd]
    | some poly =>
      have hnd : nonDegenerate fuel g.collapse_map g.render_num t = true := by
        rw [hpoly] at hsome
        exact hsome.mp rfl
      obtain ⟨rpc', log', h1, h2, h3, h4⟩ := ih (i + 1) (rpc + 1)
        ⟨log.polygons ++ [poly], log.drawn ++ [i], log.mapReads ++ s.mapReads,
          log.vertReads ++ s.vertReads⟩ hrest
      refine ⟨rpc', log', ?_, ?_, ?_, ?_⟩
      · simp only [drawLoop, hs, bind, Except.bind, hpoly]
        exact h1
      · rw [h2, List.countP_cons_of_pos _ _ hnd]
        push_cast
        ring
      · simp [h3, drawnFrom, hnd]
      · rw [h4, List.countP_cons_of_pos _ _ hnd]
        simp
        ring

/-- Under the invariant the render pass of a well-formed mesh completes: it
leaves in `renderpolycount` the number of non-degenerate triangles, emits one
polygon for each of them, in the order of the triangle buffer, and changes
nothing else. -/
theorem DrawModelTriangles_ok (fuel : Nat) (g : Globals) (hwf : WellFormedMesh g)
    (hinv : CollapseTableInvariant g.collapse_map) (hfuel : g.collapse_map.length ≤ fuel) :
    ∃ log, DrawModelTriangles fuel g =
        .ok (⟨g.render_num, g.lodbase, g.morph, g.vert, g.tri, g.collapse_map,
          g.tri.countP (nonDegenerate fuel g.collapse_map g.render_num)⟩, log) ∧
      log.drawn = drawnFrom (nonDegenerate fuel g.collapse_map g.render_num) g.tri 0 ∧
      log.polygons.length = g.tri.countP (nonDegenerate fuel g.collapse_map g.render_num) := by
  obtain ⟨rpc', log', h1, h2, h3, h4⟩ :=
    drawLoop_ok fuel g hinv hwf.1 hfuel g.tri 0 0 ⟨[], [], [], []⟩ hwf.2
  refine ⟨log', ?_, by simpa using h3, by simpa using h4⟩
  have hne : ¬ g.collapse_map.length = 0 := Nat.pos_iff_ne_zero.mp hinv.1
  simp only [DrawModelTriangles, hne, if_false, h1, bind, Except.bind]
  simp only [zero_add] at h2
  rw [h2]
  rfl

theorem nonDegenerate_values (fuel : Nat) (collapse_map : List Int)
    (hinv : CollapseTableInvariant collapse_map) (hfuel : collapse_map.length ≤ fuel) (mx : Int)
    (t : tridata)
    (ht : (0 ≤ t.v0 ∧ t.v0 < collapse_map.length) ∧ (0 ≤ t.v1 ∧ t.v1 < collapse_map.length) ∧
      (0 ≤ t.v2 ∧ t.v2 < collapse_map.length)) :
    ∃ p0 p1 p2, MapValue fuel collapse_map t.v0 mx = some p0 ∧
      MapValue fuel collapse_map t.v1 mx = some p1 ∧
      MapValue fuel collapse_map t.v2 mx = some p2 ∧
      (0 < mx → (0 ≤ p0 ∧ p0 < mx) ∧ (0 ≤ p1 ∧ p1 < mx) ∧ (0 ≤ p2 ∧ p2 < mx)) ∧
      (mx ≤ 0 → p0 = 0 ∧ p1 = 0 ∧ p2 = 0) ∧
      (nonDegenerate fuel collapse_map mx t = true ↔ ¬(p0 = p1 ∨ p1 = p2 ∨ p2 = p0)) := by
  obtain ⟨⟨a0, a1⟩, ⟨b0, b1⟩, ⟨c0, c1⟩⟩ := ht
  obtain ⟨p0, r0, hp0, hp0a, _, hp0c, hp0d, _⟩ :=
    Map_total collapse_map hinv t.v0 mx a0 a1 fuel hfuel
  obtain ⟨p1, r1, hp1, hp1a, _, hp1c, hp1d, _⟩ :=
    Map_total collapse_map hinv t.v1 mx b0 b1 fuel hfuel
  obtain ⟨p2, r2, hp2, hp2a, _, hp2c, hp2d, _⟩ :=
    Map_total collapse_map hinv t.v2 mx c0 c1 fuel hfuel
  refine ⟨p0, p1, p2, (MapValue_eq_some _ _ _ _ _).mpr ⟨r0, hp0⟩,
    (MapValue_eq_some _ _ _ _ _).mpr ⟨r1, hp1⟩, (MapValue_eq_some _ _ _ _ _).mpr ⟨r2, hp2⟩,
    fun h => ⟨⟨hp0a, hp0c h⟩, ⟨hp1a, hp1c h⟩, ⟨hp2a, hp2c h⟩⟩,
    fun h => ⟨(hp0d h).1, (hp1d h).1, (hp2d h).1⟩,
    nonDegenerate_eq fuel collapse_map mx t p0 p1 p2 r0 r1 r2 hp0 hp1 hp2⟩

/-- At a budget of at most 2 every triangle is degenerate. -/
theorem nonDegenerate_false_of_le_two (fuel : Nat) (collapse_map : List Int)
    (hinv : CollapseTableInvariant collapse_map) (hfuel : collapse_map.length ≤ fuel) (mx : Int)
    (hmx : mx ≤ 2) (tri : List tridata) (hc : CornersInRange tri collapse_map.length) :
    ∀ t ∈ tri, nonDegenerate fuel collapse_map mx t = false := by
  intro t ht
  obtain ⟨p0, p1, p2, _, _, _, hpos, hneg, hnd⟩ :=
    nonDegenerate_values fuel collapse_map hinv hfuel mx t (hc t ht)
  cases hv : nonDegenerate fuel collapse_map mx t with
  | false => rfl
  | true =>
    exfalso
    apply hnd.mp hv
    by_cases h : 0 < mx
    · obtain ⟨⟨h1, h2⟩, ⟨h3, h4⟩, ⟨h5, h6⟩⟩ := hpos h
      omega
    · obtain ⟨h1, h2, _⟩ := hneg (not_lt.mp h)
      exact Or.inl (by omega)

/-- A triangle that is not degenerate at a budget is not degenerate at any finer
budget. -/
theorem nonDegenerate_mono (fuel : Nat) (collapse_map : List Int)
    (hinv : CollapseTableInvariant collapse_map) (hfuel : collapse_map.length ≤ fuel)
    (mx1 mx2 : Int) (hle : mx1 ≤ mx2) (t : tridata)
    (ht : (0 ≤ t.v0 ∧ t.v0 < collapse_map.length) ∧ (0 ≤ t.v1 ∧ t.v1 < collapse_map.length) ∧
      (0 ≤ t.v2 ∧ t.v2 < collapse_map.length))
    (h1 : nonDegenerate fuel collapse_map mx1 t = true) :
    nonDegenerate fuel collapse_map mx2 t = true := by
  obtain ⟨p0, p1, p2, hp0, hp1, hp2, _, _, hnd1⟩ :=
    nonDegenerate_values fuel collapse_map hinv hfuel mx1 t ht
  obtain ⟨q0, q1, q2, hq0, hq1, hq2, _, _, hnd2⟩ :=
    nonDegenerate_values fuel collapse_map hinv hfuel mx2 t ht
  rw [hnd2]
  intro hdeg
  apply hnd1.mp h1
  rcases hdeg with h | h | h
  · subst h
    exact Or.inl (MapValue_coalesce collapse_map mx1 mx2 hle fuel _ _ _ _ _ hq0 hq1 hp0 hp1)
  · subst h
    exact Or.inr (Or.inl
      (MapValue_coalesce collapse_map mx1 mx2 hle fuel _ _ _ _ _ hq1 hq2 hp1 hp2))
  · subst h
    exact Or.inr (Or.inr
      (MapValue_coalesce collapse_map mx1 mx2 hle fuel _ _ _ _ _ hq2 hq0 hp2 hp0))

/-- A pass at a budget of at most 2 completes, counts nothing and emits nothing. -/
theorem DrawModelTriangles_le_two (fuel : Nat) (g : Globals) (hmx : g.render_num ≤ 2)
    (hwf : WellFormedMesh g) (hinv : CollapseTableInvariant g.collapse_map)
    (hfuel : g.collapse_map.length ≤ fuel) :
    ∃ g' log, DrawModelTriangles fuel g = .ok (g', log) ∧ g'.renderpolycount = 0 ∧
      log.polygons = [] ∧ log.drawn = [] := by
  obtain ⟨log, h, hd, hp⟩ := DrawModelTriangles_ok fuel g hwf hinv hfuel
  have hall := nonDegenerate_false_of_le_two fuel g.collapse_map hinv hfuel g.render_num hmx
    g.tri hwf.2
  have hcount : g.tri.countP (nonDegenerate fuel g.collapse_map g.render_num) = 0 := by
    rw [List.countP_eq_zero]
    intro t ht
    simp [hall t ht]
  refine ⟨_, log, h, ?_, ?_, ?_⟩
  · show ((g.tri.countP (nonDegenerate fuel g.collapse_map g.render_num) : Nat) : Int) = 0
    rw [hcount]
    rfl
  · rw [hcount] at hp
    exact List.length_eq_zero.mp hp
  · apply List.length_eq_zero.mp
    rw [hd, drawnFrom_length, hcount]

/-! ### Claims about the render pass -/

/-- C4 (budget monotonicity): for a well-formed mesh and a collapse table that
satisfies the Collapse Table invariant, and budgets `mx1 ≤ mx2`, the render pass
completes at both budgets, every triangle it draws at `render_num = mx1` it also
draws at `render_num = mx2`, and `renderpolycount` at `mx1` is at most
`renderpolycount` at `mx2`. -/
theorem DrawModelTriangles_budget_mono (fuel : Nat) (g : Globals) (mx1 mx2 : Int)
    (hle : mx1 ≤ mx2) (hwf : WellFormedMesh g) (hinv : CollapseTableInvariant g.collapse_map)
    (hfuel : g.collapse_map.length ≤ fuel) :
    ∃ g1 log1 g2 log2,
      DrawModelTriangles fuel (withBudget g mx1) = .ok (g1, log1) ∧
      DrawModelTriangles fuel (withBudget g mx2) = .ok (g2, log2) ∧
      (∀ i, i ∈ log1.drawn → i ∈ log2.drawn) ∧
      g1.renderpolycount ≤ g2.renderpolycount := by
  obtain ⟨log1, h1, hd1, _⟩ := DrawModelTriangles_ok fuel (withBudget g mx1) hwf hinv hfuel
  obtain ⟨log2, h2, hd2, _⟩ := DrawModelTriangles_ok fuel (withBudget g mx2) hwf hinv hfuel
  have hmono : ∀ t ∈ g.tri, nonDegenerate fuel g.collapse_map mx1 t = true →
      nonDegenerate fuel g.collapse_map mx2 t = true :=
    fun t ht => nonDegenerate_mono fuel g.collapse_map hinv hfuel mx1 mx2 hle t (hwf.2 t ht)
  refine ⟨_, log1, _, log2, h1, h2, ?_, ?_⟩
  · intro i hi
    rw [hd1, drawnFrom_mem] at hi
    rw [hd2, drawnFrom_mem]
    obtain ⟨h0, t, ht, hnd⟩ := hi
    exact ⟨h0, t, ht, hmono t (List.getElem?_mem ht) hnd⟩
  · show ((g.tri.countP (nonDegenerate fuel g.collapse_map mx1) : Nat) : Int) ≤
      ((g.tri.countP (nonDegenerate fuel g.collapse_map mx2) : Nat) : Int)
    exact_mod_cast List.countP_mono_left hmono

/-- Witness of C4: the tetrahedron of the specification at budgets 3 and 4. -/
theorem DrawModelTriangles_budget_mono_witness :
    (3 : Int) ≤ 4 ∧ WellFormedMesh (tetrahedron 0 17) ∧
    CollapseTableInvariant (tetrahedron 0 17).collapse_map ∧
    (tetrahedron 0 17).collapse_map.length ≤ 4 ∧
    ∃ g1 log1 g2 log2,
      DrawModelTriangles 4 (withBudget (tetrahedron 0 17) 3) = .ok (g1, log1) ∧
      DrawModelTriangles 4 (withBudget (tetrahedron 0 17) 4) = .ok (g2, log2) ∧
      (∀ i, i ∈ log1.drawn → i ∈ log2.drawn) ∧
      g1.renderpolycount ≤ g2.renderpolycount :=
  ⟨by decide, ⟨rfl, checkCorners_sound _ _ (by decide)⟩, checkInvariant_sound _ (by decide),
    by decide,
    DrawModelTriangles_budget_mono 4 (tetrahedron 0 17) 3 4 (by decide)
      ⟨rfl, checkCorners_sound _ _ (by decide)⟩ (checkInvariant_sound _ (by decide))
      (by decide)⟩

/-- C7: for a well-formed mesh, a collapse table that satisfies the Collapse
Table invariant and any budget `render_num`, and whatever `renderpolycount` held
before the call, `DrawModelTriangles` completes and leaves in `renderpolycount`
exactly the number of triangles whose three corners resolve, at `render_num`, to
pairwise distinct vertices; it emits one polygon for each of these triangles and
none for a triangle with two equal resolved corners. -/
theorem DrawModelTriangles_renderpolycount (fuel : Nat) (g : Globals) (hwf : WellFormedMesh g)
    (hinv : CollapseTableInvariant g.collapse_map) (hfuel : g.collapse_map.length ≤ fuel) :
    ∃ g' log, DrawModelTriangles fuel g = .ok (g', log) ∧
      g'.renderpolycount = g.tri.countP (nonDegenerate fuel g.collapse_map g.render_num) ∧
      log.polygons.length = g.tri.countP (nonDegenerate fuel g.collapse_map g.render_num) ∧
      (∀ i, i ∈ log.drawn ↔
        ∃ t, g.tri[i]? = some t ∧ nonDegenerate fuel g.collapse_map g.render_num t = true) ∧
      ∀ t ∈ g.tri, ∃ p0 p1 p2,
        MapValue fuel g.collapse_map t.v0 g.render_num = some p0 ∧
        MapValue fuel g.collapse_map t.v1 g.render_num = some p1 ∧
        MapValue fuel g.collapse_map t.v2 g.render_num = some p2 ∧
        (nonDegenerate fuel g.collapse_map g.render_num t = true ↔
          p0 ≠ p1 ∧ p1 ≠ p2 ∧ p2 ≠ p0) := by
  obtain ⟨log, h, hd, hp⟩ := DrawModelTriangles_ok fuel g hwf hinv hfuel
  refine ⟨_, log, h, rfl, hp, ?_, ?_⟩
  · intro i
    rw [hd, drawnFrom_mem]
    simp
  · intro t ht
    obtain ⟨p0, p1, p2, h0, h1, h2, _, _, hnd⟩ :=
      nonDegenerate_values fuel g.collapse_map hinv hfuel g.render_num t (hwf.2 t ht)
    refine ⟨p0, p1, p2, h0, h1, h2, ?_⟩
    rw [hnd]
    simp only [not_or, ne_eq]

/-- Witness of C7: the tetrahedron with Collapse Table `[0,0,0,0]` at budget 4,
with 17 in `renderpolycount` before the call, gives 4. -/
theorem DrawModelTriangles_renderpolycount_witness :
    WellFormedMesh (tetrahedron 4 17) ∧ CollapseTableInvariant (tetrahedron 4 17).collapse_map ∧
    (tetrahedron 4 17).collapse_map.length ≤ 4 ∧
    (tetrahedron 4 17).tri.countP (nonDegenerate 4 (tetrahedron 4 17).collapse_map 4) = 4 ∧
    ∃ g' log, DrawModelTriangles 4 (tetrahedron 4 17) = .ok (g', log) ∧
      g'.renderpolycount =
        (tetrahedron 4 17).tri.countP
          (nonDegenerate 4 (tetrahedron 4 17).collapse_map (tetrahedron 4 17).render_num) ∧
      log.polygons.length =
        (tetrahedron 4 17).tri.countP
          (nonDegenerate 4 (tetrahedron 4 17).collapse_map (tetrahedron 4 17).render_num) ∧
      (∀ i, i ∈ log.drawn ↔
        ∃ t, (tetrahedron 4 17).tri[i]? = some t ∧
          nonDegenerate 4 (tetrahedron 4 17).collapse_map (tetrahedron 4 17).render_num t
            = true) ∧
      ∀ t ∈ (tetrahedron 4 17).tri, ∃ p0 p1 p2,
        MapValue 4 (tetrahedron 4 17).collapse_map t.v0 (tetrahedron 4 17).render_num = some p0 ∧
        MapValue 4 (tetrahedron 4 17).collapse_map t.v1 (tetrahedron 4 17).render_num = some p1 ∧
        MapValue 4 (tetrahedron 4 17).collapse_map t.v2 (tetrahedron 4 17).render_num = some p2 ∧
        (nonDegenerate 4 (tetrahedron 4 17).collapse_map (tetrahedron 4 17).render_num t = true ↔
          p0 ≠ p1 ∧ p1 ≠ p2 ∧ p2 ≠ p0) :=
  ⟨⟨rfl, checkCorners_sound _ _ (by decide)⟩, checkInvariant_sound _ (by decide), by decide,
    by decide,
    DrawModelTriangles_renderpolycount 4 (tetrahedron 4 17)
      ⟨rfl, checkCorners_sound _ _ (by decide)⟩ (checkInvariant_sound _ (by decide))
      (by decide)⟩

/-- C8 (degeneracy exhaustiveness): for a well-formed mesh and a collapse table
that satisfies the Collapse Table invariant, at budget `render_num = 1` every
triangle resolves all three corners to vertex 0, no triangle is emitted, and
`DrawModelTriangles` completes and leaves `renderpolycount = 0`. -/
theorem DrawModelTriangles_budget_one (fuel : Nat) (g : Globals) (hrn : g.render_num = 1)
    (hwf : WellFormedMesh g) (hinv : CollapseTableInvariant g.collapse_map)
    (hfuel : g.collapse_map.length ≤ fuel) :
    (∀ t ∈ g.tri, MapValue fuel g.collapse_map t.v0 1 = some 0 ∧
      MapValue fuel g.collapse_map t.v1 1 = some 0 ∧
      MapValue fuel g.collapse_map t.v2 1 = some 0) ∧
    ∃ g' log, DrawModelTriangles fuel g = .ok (g', log) ∧ g'.renderpolycount = 0 ∧
      log.polygons = [] ∧ log.drawn = [] := by
  refine ⟨?_, DrawModelTriangles_le_two fuel g (by omega) hwf hinv hfuel⟩
  intro t ht
  obtain ⟨p0, p1, p2, h0, h1, h2, hpos, _, _⟩ :=
    nonDegenerate_values fuel g.collapse_map hinv hfuel 1 t (hwf.2 t ht)
  obtain ⟨⟨a0, a1⟩, ⟨b0, b1⟩, ⟨c0, c1⟩⟩ := hpos (by decide)
  have e0 : p0 = 0 := by omega
  have e1 : p1 = 0 := by omega
  have e2 : p2 = 0 := by omega
  subst e0 e1 e2
  exact ⟨h0, h1, h2⟩

/-- Witness of C8: the tetrahedron of the specification at budget 1. -/
theorem DrawModelTriangles_budget_one_witness :
    (tetrahedron 1 17).render_num = 1 ∧ WellFormedMesh (tetrahedron 1 17) ∧
    CollapseTableInvariant (tetrahedron 1 17).collapse_map ∧
    (tetrahedron 1 17).collapse_map.length ≤ 4 ∧
    (∀ t ∈ (tetrahedron 1 17).tri,
      MapValue 4 (tetrahedron 1 17).collapse_map t.v0 1 = some 0 ∧
      MapValue 4 (tetrahedron 1 17).collapse_map t.v1 1 = some 0 ∧
      MapValue 4 (tetrahedron 1 17).collapse_map t.v2 1 = some 0) ∧
    ∃ g' log, DrawModelTriangles 4 (tetrahedron 1 17) = .ok (g', log) ∧
      g'.renderpolycount = 0 ∧ log.polygons = [] ∧ log.drawn = [] :=
  ⟨rfl, ⟨rfl, checkCorners_sound _ _ (by decide)⟩, checkInvariant_sound _ (by decide),
    by decide,
    DrawModelTriangles_budget_one 4 (tetrahedron 1 17) rfl
      ⟨rfl, checkCorners_sound _ _ (by decide)⟩ (checkInvariant_sound _ (by decide))
      (by decide)⟩

/-- C9 (pigeonhole floor): for a well-formed mesh and a collapse table that
satisfies the Collapse Table invariant, at budget `render_num = 2` the three
corners of each triangle resolve into the set `{0,1}`, so at least two of them
coincide, no triangle is emitted, and `DrawModelTriangles` completes and leaves
`renderpolycount = 0`. -/
theorem DrawModelTriangles_budget_two (fuel : Nat) (g : Globals) (hrn : g.render_num = 2)
    (hwf : WellFormedMesh g) (hinv : CollapseTableInvariant g.collapse_map)
    (hfuel : g.collapse_map.length ≤ fuel) :
    (∀ t ∈ g.tri, ∃ p0 p1 p2,
      MapValue fuel g.collapse_map t.v0 2 = some p0 ∧
      MapValue fuel g.collapse_map t.v1 2 = some p1 ∧
      MapValue fuel g.collapse_map t.v2 2 = some p2 ∧
      (p0 = 0 ∨ p0 = 1) ∧ (p1 = 0 ∨ p1 = 1) ∧ (p2 = 0 ∨ p2 = 1) ∧
      (p0 = p1 ∨ p1 = p2 ∨ p2 = p0)) ∧
    ∃ g' log, DrawModelTriangles fuel g = .ok (g', log) ∧ g'.renderpolycount = 0 ∧
      log.polygons = [] ∧ log.drawn = [] := by
  refine ⟨?_, DrawModelTriangles_le_two fuel g (by omega) hwf hinv hfuel⟩
  intro t ht
  obtain ⟨p0, p1, p2, h0, h1, h2, hpos, _, _⟩ :=
    nonDegenerate_values fuel g.collapse_map hinv hfuel 2 t (hwf.2 t ht)
  obtain ⟨⟨a0, a1⟩, ⟨b0, b1⟩, ⟨c0, c1⟩⟩ := hpos (by decide)
  exact ⟨p0, p1, p2, h0, h1, h2, by omega, by omega, by omega, by omega⟩

/-- Witness of C9: the 4-triangle tetrahedron with Collapse Table `[0,0,0,0]`
draws 0 polygons at budget 2. -/
theorem DrawModelTriangles_budget_two_witness :
    (tetrahedron 2 17).render_num = 2 ∧ WellFormedMesh (tetrahedron 2 17) ∧
    CollapseTableInvariant (tetrahedron 2 17).collapse_map ∧
    (tetrahedron 2 17).collapse_map.length ≤ 4 ∧
    (∀ t ∈ (tetrahedron 2 17).tri, ∃ p0 p1 p2,
      MapValue 4 (tetrahedron 2 17).collapse_map t.v0 2 = some p0 ∧
      MapValue 4 (tetrahedron 2 17).collapse_map t.v1 2 = some p1 ∧
      MapValue 4 (tetrahedron 2 17).collapse_map t.v2 2 = some p2 ∧
      (p0 = 0 ∨ p0 = 1) ∧ (p1 = 0 ∨ p1 = 1) ∧ (p2 = 0 ∨ p2 = 1) ∧
      (p0 = p1 ∨ p1 = p2 ∨ p2 = p0)) ∧
    ∃ g' log, DrawModelTriangles 4 (tetrahedron 2 17) = .ok (g', log) ∧
      g'.renderpolycount = 0 ∧ log.polygons = [] ∧ log.drawn = [] :=
  ⟨rfl, ⟨rfl, checkCorners_sound _ _ (by decide)⟩, checkInvariant_sound _ (by decide),
    by decide,
    DrawModelTriangles_budget_two 4 (tetrahedron 2 17) rfl
      ⟨rfl, checkCorners_sound _ _ (by decide)⟩ (checkInvariant_sound _ (by decide))
      (by decide)⟩

/-! ### The vertex permutation -/

theorem vecGet_nat {α : Type} (xs : List α) (i : Nat) (x : α) (h : xs[i]? = some x) :
    vecGet xs (i : Int) = .ok x := by
  rw [vecGet_ok_iff]
  exact ⟨Int.ofNat_nonneg i, by simpa using h⟩

theorem vecSet_ok {α : Type} (xs : List α) (p : Int) (x : α) (h0 : 0 ≤ p)
    (h1 : p < xs.length) : vecSet xs p x = .ok (xs.set p.toNat x) := by
  have : p.toNat < xs.length := by omega
  simp [vecSet, h0, this]

theorem storeVertices_ok (permutation : List Int) (temp_Array : List float3)
    (hlen : temp_Array.length = permutation.length) :
    ∀ (is : List Nat) (vert : List float3), (∀ i ∈ is, i < permutation.length) →
      (∀ x ∈ permutation, 0 ≤ x ∧ x < vert.length) →
      ∃ vert', storeVertices permutation temp_Array is vert = .ok vert' ∧
        vert'.length = vert.length ∧
        (∀ j : Nat, (∀ i ∈ is, permutation[i]? ≠ some (j : Int)) → vert'[j]? = vert[j]?) ∧
        (is.Nodup → permutation.Nodup → ∀ i ∈ is, ∀ p x, permutation[i]? = some p →
          temp_Array[i]? = some x → vert'[p.toNat]? = some x) := by
  intro is
  induction is with
  | nil =>
    intro vert _ _
    exact ⟨vert, rfl, rfl, fun _ _ => rfl, fun _ _ i hi => absurd hi (List.not_mem_nil i)⟩
  | cons i rest ih =>
    intro vert his hrange
    have hi : i < permutation.length := his i (List.mem_cons_self _ _)
    have hi' : i < temp_Array.length := by omega
    have hp : permutation[i]? = some permutation[i] := List.getElem?_eq_getElem hi
    have hx : temp_Array[i]? = some temp_Array[i] := List.getElem?_eq_getElem hi'
    obtain ⟨hp0, hpN⟩ := hrange permutation[i] (List.getElem_mem hi)
    have hpN' : permutation[i].toNat < vert.length := by omega
    obtain ⟨vert', h1, h2, h3, h4⟩ := ih (vert.set permutation[i].toNat temp_Array[i])
      (fun k hk => his k (List.mem_cons_of_mem _ hk))
      (by simpa using hrange)
    refine ⟨vert', ?_, by simpa using h2, ?_, ?_⟩
    · simp only [storeVertices, vecGet_nat _ _ _ hp, vecGet_nat _ _ _ hx,
        vecSet_ok _ _ _ hp0 hpN, bind, Except.bind]
      exact h1
    · intro j hj
      rw [h3 j (fun k hk => hj k (List.mem_cons_of_mem _ hk))]
      apply List.getElem?_set_ne
      intro heq
      apply hj i (List.mem_cons_self _ _)
      rw [hp, ← heq, Int.toNat_of_nonneg hp0]
    · intro hnd hpnd k hk p x hkp hkx
      rw [List.nodup_cons] at hnd
      rcases List.mem_cons.mp hk with rfl | hk'
      · rw [hp] at hkp
        rw [hx] at hkx
        cases hkp
        cases hkx
        rw [h3 permutation[k].toNat]
        · exact List.getElem?_set_self (by simpa using hpN')
        · intro m hm hmp
          rw [Int.toNat_of_nonneg hp0, ← hp] at hmp
          have : m = k :=
            List.getElem?_inj (his m (List.mem_cons_of_mem _ hm)) hpnd hmp
          exact hnd.1 (this ▸ hm)
      · exact h4 hnd.2 hpnd k hk' p x hkp hkx

theorem permuteTriangles_ok (permutation : List Int) :
    ∀ tri : List tridata, CornersInRange tri permutation.length →
      ∃ tri', permuteTriangles permutation tri = .ok tri' ∧ tri'.length = tri.length ∧
        ∀ (i : Nat) (t : tridata), tri[i]? = some t → ∃ t' : tridata, tri'[i]? = some t' ∧
          vecGet permutation t.v0 = .ok t'.v0 ∧ vecGet permutation t.v1 = .ok t'.v1 ∧
          vecGet permutation t.v2 = .ok t'.v2 := by
  intro tri
  induction tri with
  | nil =>
    intro _
    exact ⟨[], rfl, rfl, by simp⟩
  | cons t rest ih =>
    intro hc
    obtain ⟨⟨a0, a1⟩, ⟨b0, b1⟩, ⟨c0, c1⟩⟩ := hc t (List.mem_cons_self _ _)
    obtain ⟨x, hx⟩ := vecGet_ok_of_range permutation t.v0 a0 a1
    obtain ⟨y, hy⟩ := vecGet_ok_of_range permutation t.v1 b0 b1
    obtain ⟨z, hz⟩ := vecGet_ok_of_range permutation t.v2 c0 c1
    obtain ⟨rest', h1, h2, h3⟩ := ih (fun u hu => hc u (List.mem_cons_of_mem _ hu))
    refine ⟨⟨x, y, z⟩ :: rest', ?_, by simp [h2], ?_⟩
    · simp only [permuteTriangles, permuteTriangle, hx, hy, hz, h1, bind, Except.bind]
      rfl
    · intro i u hu
      cases i with
      | zero =>
        simp only [List.getElem?_cons_zero, Option.some.injEq] at hu
        subst hu
        exact ⟨⟨x, y, z⟩, by simp, hx, hy, hz⟩
      | succ m =>
        simp only [List.getElem?_cons_succ] at hu ⊢
        exact h3 m u hu

/-- With a permutation array of length `N` whose values lie in `[0,N)` and
triangle corners in `[0,N)`, `PermuteVertices` completes. -/
theorem PermuteVertices_ok (permutation : List Int) (g : Globals)
    (hlen : permutation.length = g.vert.length)
    (hval : ValuesInRange permutation g.vert.length)
    (htri : CornersInRange g.tri g.vert.length) :
    ∃ vert' tri', PermuteVertices permutation g =
        .ok ⟨g.render_num, g.lodbase, g.morph, vert', tri', g.collapse_map, g.renderpolycount⟩ ∧
      storeVertices permutation g.vert (List.range g.vert.length) g.vert = .ok vert' ∧
      permuteTriangles permutation g.tri = .ok tri' := by
  obtain ⟨vert', h1, _⟩ := storeVertices_ok permutation g.vert hlen.symm
    (List.range g.vert.length) g.vert (fun i hi => by rw [hlen]; exact List.mem_range.mp hi) hval
  obtain ⟨tri', h2, _⟩ := permuteTriangles_ok permutation g.tri (by rw [hlen]; exact htri)
  refine ⟨vert', tri', ?_, h1, h2⟩
  simp only [PermuteVertices, hlen, ne_eq, not_true_eq_false, if_false, h1, h2, bind,
    Except.bind]
  rfl

/-! ### Claims about `PermuteVertices` -/

/-- C5: for a vertex buffer of length `N` (whose triangles have their corners in
`[0,N)`) and a permutation array that is a bijection on `[0,N)`,
`PermuteVertices(permutation)` completes, the vertex buffer still has length `N`,
and for every `i` in `[0,N)` the new `vert[permutation[i]]` is the old `vert[i]`. -/
theorem PermuteVertices_vert (permutation : List Int) (g : Globals)
    (hbij : BijectionOn permutation g.vert.length)
    (htri : CornersInRange g.tri g.vert.length) :
    ∃ g', PermuteVertices permutation g = .ok g' ∧ g'.vert.length = g.vert.length ∧
      ∀ i : Nat, i < g.vert.length → ∃ p x, vecGet permutation i = .ok p ∧
        vecGet g.vert i = .ok x ∧ vecGet g'.vert p = .ok x := by
  obtain ⟨hlen, hval, hnd⟩ := hbij
  obtain ⟨vert', tri', h, hs, _⟩ := PermuteVertices_ok permutation g hlen hval htri
  obtain ⟨vert'', h1, h2, _, h4⟩ := storeVertices_ok permutation g.vert hlen.symm
    (List.range g.vert.length) g.vert (fun i hi => by rw [hlen]; exact List.mem_range.mp hi) hval
  rw [hs] at h1
  cases h1
  refine ⟨_, h, h2, ?_⟩
  intro i hi
  have hi' : i < permutation.length := by omega
  have hp : permutation[i]? = some permutation[i] := List.getElem?_eq_getElem hi'
  have hx : g.vert[i]? = some g.vert[i] := List.getElem?_eq_getElem hi
  refine ⟨permutation[i], g.vert[i], vecGet_nat _ _ _ hp, vecGet_nat _ _ _ hx, ?_⟩
  rw [vecGet_ok_iff]
  exact ⟨(hval _ (List.getElem_mem hi')).1,
    h4 (List.nodup_range _) hnd i (List.mem_range.mpr hi) _ _ hp hx⟩

/-- Witness of C5: the tetrahedron of the specification under the cyclic
permutation `[1,2,3,0]`. -/
theorem PermuteVertices_vert_witness :
    BijectionOn [1, 2, 3, 0] (tetrahedron 4 0).vert.length ∧
    CornersInRange (tetrahedron 4 0).tri (tetrahedron 4 0).vert.length ∧
    ∃ g', PermuteVertices [1, 2, 3, 0] (tetrahedron 4 0) = .ok g' ∧
      g'.vert.length = (tetrahedron 4 0).vert.length ∧
      ∀ i : Nat, i < (tetrahedron 4 0).vert.length → ∃ p x,
        vecGet ([1, 2, 3, 0] : List Int) i = .ok p ∧
        vecGet (tetrahedron 4 0).vert i = .ok x ∧ vecGet g'.vert p = .ok x :=
  ⟨⟨rfl, by decide, by decide⟩, checkCorners_sound _ _ (by decide),
    PermuteVertices_vert [1, 2, 3, 0] (tetrahedron 4 0) ⟨rfl, by decide, by decide⟩
      (checkCorners_sound _ _ (by decide))⟩

/-- C6, as amended: for a triangle buffer whose corners lie in `[0,N)` and a
permutation array of length `N` whose values lie in `[0,N)` (bijective or not),
`PermuteVertices(permutation)` completes, the number and order of triangles are
unchanged, and every corner of every triangle is replaced by `permutation` at the
old corner. -/
theorem PermuteVertices_tri (permutation : List Int) (g : Globals)
    (hlen : permutation.length = g.vert.length)
    (hval : ValuesInRange permutation g.vert.length)
    (htri : CornersInRange g.tri g.vert.length) :
    ∃ g', PermuteVertices permutation g = .ok g' ∧ g'.tri.length = g.tri.length ∧
      ∀ (i : Nat) (t : tridata), g.tri[i]? = some t → ∃ t' : tridata, g'.tri[i]? = some t' ∧
        vecGet permutation t.v0 = .ok t'.v0 ∧ vecGet permutation t.v1 = .ok t'.v1 ∧
        vecGet permutation t.v2 = .ok t'.v2 := by
  obtain ⟨vert', tri', h, _, ht⟩ := PermuteVertices_ok permutation g hlen hval htri
  obtain ⟨tri'', h1, h2, h3⟩ := permuteTriangles_ok permutation g.tri (by rw [hlen]; exact htri)
  rw [ht] at h1
  cases h1
  exact ⟨_, h, h2, h3⟩

/-- Witness of C6 as amended: the tetrahedron of the specification under the
array `[2,2,0,1]`, which is not a bijection. -/
theorem PermuteVertices_tri_witness :
    ([2, 2, 0, 1] : List Int).length = (tetrahedron 4 0).vert.length ∧
    ValuesInRange [2, 2, 0, 1] (tetrahedron 4 0).vert.length ∧
    CornersInRange (tetrahedron 4 0).tri (tetrahedron 4 0).vert.length ∧
    ∃ g', PermuteVertices [2, 2, 0, 1] (tetrahedron 4 0) = .ok g' ∧
      g'.tri.length = (tetrahedron 4 0).tri.length ∧
      ∀ (i : Nat) (t : tridata), (tetrahedron 4 0).tri[i]? = some t →
        ∃ t' : tridata, g'.tri[i]? = some t' ∧
          vecGet [2, 2, 0, 1] t.v0 = .ok t'.v0 ∧ vecGet [2, 2, 0, 1] t.v1 = .ok t'.v1 ∧
          vecGet [2, 2, 0, 1] t.v2 = .ok t'.v2 :=
  ⟨rfl, by unfold ValuesInRange; decide, checkCorners_sound _ _ (by decide),
    PermuteVertices_tri [2, 2, 0, 1] (tetrahedron 4 0) rfl (by unfold ValuesInRange; decide)
      (checkCorners_sound _ _ (by decide))⟩

/-- Counterexample to C6 as stated: the permutation array `[5]` has the length of
the vertex buffer and the corners of the only triangle lie in `[0,1)`, but
`vert[permutation[0]]` is outside the vertex buffer, so the call does not
complete and leaves no rewritten triangle buffer. -/
theorem PermuteVertices_tri_counterexample :
    ([5] : List Int).length = oneVertexMesh.vert.length ∧
    CornersInRange oneVertexMesh.tri oneVertexMesh.vert.length ∧
    PermuteVertices [5] oneVertexMesh = .error .outOfBounds ∧
    ¬ ∃ g', PermuteVertices [5] oneVertexMesh = .ok g' :=
  ⟨rfl, checkCorners_sound _ _ (by decide), rfl, by
    rintro ⟨g', h⟩
    have e : PermuteVertices [5] oneVertexMesh = .error .outOfBounds := rfl
    rw [e] at h
    cases h⟩

/-! ### More on `Map`: what it reads -/

theorem MapLoop_reads (collapse_map : List Int) (mx : Int) :
    ∀ (fuel : Nat) (a v : Int) (reads : List Int),
      MapLoop collapse_map mx fuel a = .ok (v, reads) →
      ∀ r ∈ reads, mx ≤ r ∧ 0 ≤ r ∧ r < collapse_map.length := by
  intro fuel
  induction fuel with
  | zero =>
    intro a v reads h
    by_cases hge : mx ≤ a
    · rw [MapLoop_zero_ge _ _ _ hge] at h
      cases h
    · rw [MapLoop_lt _ _ _ _ (not_le.mp hge)] at h
      cases h
      simp
  | succ n ih =>
    intro a v reads h
    by_cases hge : mx ≤ a
    · rcases vecGet_error_or_ok collapse_map a with he | ⟨b, hb⟩
      · rw [MapLoop_succ_ge_error _ _ _ _ hge he] at h
        cases h
      · rw [MapLoop_succ_ge _ _ _ _ _ hge hb] at h
        cases hM : MapLoop collapse_map mx n b with
        | error e =>
          rw [hM] at h
          cases h
        | ok r =>
          obtain ⟨w, rs⟩ := r
          rw [hM] at h
          cases h
          intro r hr
          rcases List.mem_cons.mp hr with rfl | hr'
          · exact ⟨hge, vecGet_range hb⟩
          · exact ih b v rs hM r hr'
    · rw [MapLoop_lt _ _ _ _ (not_le.mp hge)] at h
      cases h
      simp

/-- Every entry that `Map` reads is at an index that is at least the budget, at
least 1, and inside the table. -/
theorem Map_reads (fuel : Nat) (collapse_map : List Int) (a mx v : Int) (reads : List Int)
    (h : Map fuel collapse_map a mx = .ok (v, reads)) :
    ∀ r ∈ reads, mx ≤ r ∧ 1 ≤ r ∧ r < collapse_map.length := by
  by_cases hmx : 0 < mx
  · rw [Map_pos _ _ _ _ hmx] at h
    intro r hr
    obtain ⟨h1, _, h3⟩ := MapLoop_reads collapse_map mx fuel a v reads h r hr
    exact ⟨h1, by omega, h3⟩
  · rw [Map_nonpos _ _ _ _ (not_lt.mp hmx)] at h
    cases h
    simp

theorem MapLoop_agree (cm1 cm2 : List Int) (mx : Int)
    (hagree : ∀ i : Int, mx ≤ i → vecGet cm1 i = vecGet cm2 i) :
    ∀ (fuel : Nat) (a : Int), MapLoop cm1 mx fuel a = MapLoop cm2 mx fuel a := by
  intro fuel
  induction fuel with
  | zero =>
    intro a
    simp [MapLoop]
  | succ n ih =>
    intro a
    by_cases hge : mx ≤ a
    · rcases vecGet_error_or_ok cm1 a with he | ⟨b, hb⟩
      · rw [MapLoop_succ_ge_error _ _ _ _ hge he,
          MapLoop_succ_ge_error _ _ _ _ hge ((hagree a hge) ▸ he)]
      · rw [MapLoop_succ_ge _ _ _ _ _ hge hb, MapLoop_succ_ge _ _ _ _ _ hge ((hagree a hge) ▸ hb),
          ih b]
    · rw [MapLoop_lt _ _ _ _ (not_le.mp hge), MapLoop_lt _ _ _ _ (not_le.mp hge)]

theorem vecGet_cons_agree (x y : Int) (xs : List Int) (i : Int) (hi : 1 ≤ i) :
    vecGet (x :: xs) i = vecGet (y :: xs) i := by
  obtain ⟨n, hn⟩ : ∃ n : Nat, i.toNat = n + 1 := ⟨i.toNat - 1, by omega⟩
  simp [vecGet, hn]

theorem cycleTable_loop :
    ∀ fuel : Nat, MapLoop cycleTable 1 fuel 1 = .error .outOfFuel ∧
      MapLoop cycleTable 1 fuel 2 = .error .outOfFuel := by
  intro fuel
  induction fuel with
  | zero => exact ⟨rfl, rfl⟩
  | succ n ih =>
    have h1 : vecGet cycleTable 1 = .ok 2 := rfl
    have h2 : vecGet cycleTable 2 = .ok 1 := rfl
    constructor
    · rw [MapLoop_succ_ge _ _ _ _ _ (by decide) h1, ih.2]
    · rw [MapLoop_succ_ge _ _ _ _ _ (by decide) h2, ih.1]

theorem cycleTable_chain :
    ∀ k : Nat, (chain cycleTable k 1 = some 1 ∨ chain cycleTable k 1 = some 2) ∧
      (chain cycleTable k 2 = some 1 ∨ chain cycleTable k 2 = some 2) := by
  intro k
  induction k with
  | zero => exact ⟨Or.inl rfl, Or.inr rfl⟩
  | succ n ih =>
    have h1 : vecGet cycleTable 1 = .ok 2 := rfl
    have h2 : vecGet cycleTable 2 = .ok 1 := rfl
    rw [chain_succ_ok _ _ _ _ h1, chain_succ_ok _ _ _ _ h2]
    exact ⟨ih.2, ih.1⟩

theorem cycleTable_not_invariant : ¬ CollapseTableInvariant cycleTable := by
  rintro ⟨_, hreach⟩
  obtain ⟨k, hk⟩ := hreach 1 (by decide) (by decide)
  rcases (cycleTable_chain k).1 with h | h
  · rw [h] at hk
    cases hk
  · rw [h] at hk
    cases hk

/-! ### Further claims about `Map` -/

/-- C15: for a budget `mx ≥ 1`, every start index `a` and two collapse tables
that agree at every index `≥ mx`, `Map(a, mx)` behaves the same on both tables
for every allowance of iterations (same value, same look-ups, and it returns for
one exactly when it returns for the other); every index it reads is `≥ mx`, so
`collapse_map[0]` is never read. -/
theorem Map_ignores_entries_below_budget (cm1 cm2 : List Int) (mx : Int) (hmx : 1 ≤ mx)
    (hagree : ∀ i : Int, mx ≤ i → vecGet cm1 i = vecGet cm2 i) (fuel : Nat) (a : Int) :
    Map fuel cm1 a mx = Map fuel cm2 a mx ∧
      ∀ v reads, Map fuel cm1 a mx = .ok (v, reads) → ∀ r ∈ reads, mx ≤ r ∧ r ≠ 0 := by
  have hpos : 0 < mx := by omega
  refine ⟨?_, ?_⟩
  · rw [Map_pos _ _ _ _ hpos, Map_pos _ _ _ _ hpos]
    exact MapLoop_agree cm1 cm2 mx hagree fuel a
  · intro v reads h r hr
    obtain ⟨h1, h2, _⟩ := Map_reads fuel cm1 a mx v reads h r hr
    exact ⟨h1, by omega⟩

/-- Witness of C15: the table `[0,0,0,0]` and the table `[-1,0,0,0]`, which
differ in entry 0 only, at budget 1 from vertex 3. -/
theorem Map_ignores_entries_below_budget_witness :
    (1 : Int) ≤ 1 ∧ (∀ i : Int, 1 ≤ i → vecGet [0, 0, 0, 0] i = vecGet [-1, 0, 0, 0] i) ∧
    Map 4 [0, 0, 0, 0] 3 1 = .ok (0, [3]) ∧
    (Map 4 [0, 0, 0, 0] 3 1 = Map 4 [-1, 0, 0, 0] 3 1 ∧
      ∀ v reads, Map 4 [0, 0, 0, 0] 3 1 = .ok (v, reads) → ∀ r ∈ reads, (1 : Int) ≤ r ∧ r ≠ 0) :=
  ⟨by decide, fun i hi => vecGet_cons_agree 0 (-1) [0, 0, 0] i hi, rfl,
    Map_ignores_entries_below_budget [0, 0, 0, 0] [-1, 0, 0, 0] 1 (by decide)
      (fun i hi => vecGet_cons_agree 0 (-1) [0, 0, 0] i hi) 4 3⟩

/-- C17: `Map` does not enforce the Collapse Table invariant.  The table
`[0,2,1]` has all its entries in `[0,3)` but the cycle `1 → 2 → 1`; it violates
the invariant, every element of the chain from vertex 1 is `≥ 1`, and
`Map(1, 1)` returns no value, whatever number of loop iterations it may run. -/
theorem Map_cycle_never_returns (fuel : Nat) :
    ValuesInRange cycleTable cycleTable.length ∧ ¬ CollapseTableInvariant cycleTable ∧
    (∀ k, ∃ x, chain cycleTable k 1 = some x ∧ 1 ≤ x) ∧
    Map fuel cycleTable 1 1 = .error .outOfFuel ∧
    ∀ v reads, Map fuel cycleTable 1 1 ≠ .ok (v, reads) := by
  have hM : Map fuel cycleTable 1 1 = .error .outOfFuel := by
    rw [Map_pos _ _ _ _ (by decide)]
    exact (cycleTable_loop fuel).1
  have hchain : ∀ k, ∃ x, chain cycleTable k 1 = some x ∧ 1 ≤ x := by
    intro k
    rcases (cycleTable_chain k).1 with h | h
    · exact ⟨1, h, by decide⟩
    · exact ⟨2, h, by decide⟩
  refine ⟨by unfold ValuesInRange; decide, ?_, hchain, hM, ?_⟩
  · rintro ⟨_, hreach⟩
    obtain ⟨k, hk⟩ := hreach 1 (by decide) (by decide)
    obtain ⟨x, hx, hx1⟩ := hchain k
    rw [hk] at hx
    cases hx
    exact absurd hx1 (by decide)
  · intro v reads h
    rw [hM] at h
    cases h

theorem MapValue_comp (collapse_map : List Int) (hinv : CollapseTableInvariant collapse_map)
    (a mx1 mx2 : Int) (h0 : 0 ≤ a) (hN : a < collapse_map.length) (hle : mx1 ≤ mx2)
    (fuel : Nat) (hfuel : collapse_map.length ≤ fuel) :
    ∃ v2 v1, MapValue fuel collapse_map a mx2 = some v2 ∧
      MapValue fuel collapse_map v2 mx1 = some v1 ∧
      MapValue fuel collapse_map a mx1 = some v1 := by
  obtain ⟨v2, r2, h2, _⟩ := Map_total collapse_map hinv a mx2 h0 hN fuel hfuel
  obtain ⟨v1, r1, h1, _⟩ := Map_total collapse_map hinv a mx1 h0 hN fuel hfuel
  obtain ⟨r, hr⟩ := Map_comp collapse_map mx1 mx2 hle fuel a v2 r2 h2 fuel v1 r1 h1
  exact ⟨v2, v1, (MapValue_eq_some _ _ _ _ _).mpr ⟨r2, h2⟩,
    (MapValue_eq_some _ _ _ _ _).mpr ⟨r, hr⟩, (MapValue_eq_some _ _ _ _ _).mpr ⟨r1, h1⟩⟩

/-- C18 (resolver composition law): under the Collapse Table invariant, for
every index `a` of the table and budgets `mx1 ≤ mx2`, `Map(a, mx2)` returns some
`v2`, and `Map(v2, mx1)` and `Map(a, mx1)` return the same value.  Consequently,
whenever the secondary budget `(int)(render_num*lodbase)` is at most
`render_num`, the secondary index `q = Map(p, (int)(render_num*lodbase))` that
`DrawModelTriangles` computes from the resolved `p = Map(a, render_num)` equals
`Map(a, (int)(render_num*lodbase))` computed from the stored corner `a`. -/
theorem Map_composition (g : Globals) (hinv : CollapseTableInvariant g.collapse_map)
    (a mx1 mx2 : Int) (h0 : 0 ≤ a) (hN : a < g.collapse_map.length) (hle : mx1 ≤ mx2)
    (fuel : Nat) (hfuel : g.collapse_map.length ≤ fuel) :
    (∃ v2 v1, MapValue fuel g.collapse_map a mx2 = some v2 ∧
      MapValue fuel g.collapse_map v2 mx1 = some v1 ∧
      MapValue fuel g.collapse_map a mx1 = some v1) ∧
    (truncToInt (g.render_num * g.lodbase) ≤ g.render_num →
      ∃ p q, MapValue fuel g.collapse_map a g.render_num = some p ∧
        MapValue fuel g.collapse_map p (truncToInt (g.render_num * g.lodbase)) = some q ∧
        MapValue fuel g.collapse_map a (truncToInt (g.render_num * g.lodbase)) = some q) :=
  ⟨MapValue_comp g.collapse_map hinv a mx1 mx2 h0 hN hle fuel hfuel,
    fun hs => MapValue_comp g.collapse_map hinv a _ _ h0 hN hs fuel hfuel⟩

/-- Witness of C18: corner 3 of the tetrahedron of the specification, at the
budgets 1 and 3 and at `render_num = 4` with the secondary budget
`(int)(4*0.5) = 2`. -/
theorem Map_composition_witness :
    CollapseTableInvariant (tetrahedron 4 17).collapse_map ∧ (0 : Int) ≤ 3 ∧
    (3 : Int) < (tetrahedron 4 17).collapse_map.length ∧ (1 : Int) ≤ 3 ∧
    (tetrahedron 4 17).collapse_map.length ≤ 4 ∧
    truncToInt ((tetrahedron 4 17).render_num * (tetrahedron 4 17).lodbase) = 2 ∧
    ((∃ v2 v1, MapValue 4 (tetrahedron 4 17).collapse_map 3 3 = some v2 ∧
      MapValue 4 (tetrahedron 4 17).collapse_map v2 1 = some v1 ∧
      MapValue 4 (tetrahedron 4 17).collapse_map 3 1 = some v1) ∧
    ∃ p q, MapValue 4 (tetrahedron 4 17).collapse_map 3 (tetrahedron 4 17).render_num
        = some p ∧
      MapValue 4 (tetrahedron 4 17).collapse_map p
        (truncToInt ((tetrahedron 4 17).render_num * (tetrahedron 4 17).lodbase)) = some q ∧
      MapValue 4 (tetrahedron 4 17).collapse_map 3
        (truncToInt ((tetrahedron 4 17).render_num * (tetrahedron 4 17).lodbase)) = some q) := by
  have htrunc : truncToInt ((tetrahedron 4 17).render_num * (tetrahedron 4 17).lodbase) = 2 := by
    norm_num [truncToInt, tetrahedron]
  have h := Map_composition (tetrahedron 4 17) (checkInvariant_sound _ (by decide)) 3 1 3
    (by decide) (by decide) (by decide) 4 (by decide)
  exact ⟨checkInvariant_sound _ (by decide), by decide, by decide, by decide, by decide, htrunc,
    h.1, h.2 (by rw [htrunc]; decide)⟩

/-! ### The render pass, read backwards -/

/-- What a completed iteration of the triangle loop has done. -/
theorem drawTriangle_inv (fuel : Nat) (g : Globals) (t : tridata) (s : TriStep)
    (h : drawTriangle fuel g t = .ok s) :
    ∃ p0 p1 p2 r0 r1 r2,
      Map fuel g.collapse_map t.v0 g.render_num = .ok (p0, r0) ∧
      Map fuel g.collapse_map t.v1 g.render_num = .ok (p1, r1) ∧
      Map fuel g.collapse_map t.v2 g.render_num = .ok (p2, r2) ∧
      (((p0 = p1 ∨ p1 = p2 ∨ p2 = p0) ∧ s = ⟨none, r0 ++ r1 ++ r2, []⟩) ∨
        (¬(p0 = p1 ∨ p1 = p2 ∨ p2 = p0) ∧ ∃ q0 q1 q2 s0 s1 s2 a0 b0 a1 b1 a2 b2,
          Map fuel g.collapse_map p0 (truncToInt (g.render_num * g.lodbase)) = .ok (q0, s0) ∧
          Map fuel g.collapse_map p1 (truncToInt (g.render_num * g.lodbase)) = .ok (q1, s1) ∧
          Map fuel g.collapse_map p2 (truncToInt (g.render_num * g.lodbase)) = .ok (q2, s2) ∧
          vecGet g.vert p0 = .ok a0 ∧ vecGet g.vert q0 = .ok b0 ∧
          vecGet g.vert p1 = .ok a1 ∧ vecGet g.vert q1 = .ok b1 ∧
          vecGet g.vert p2 = .ok a2 ∧ vecGet g.vert q2 = .ok b2 ∧
          s = ⟨some (emitPolygon a0 b0 a1 b1 a2 b2 g.morph),
            r0 ++ r1 ++ r2 ++ s0 ++ s1 ++ s2, [p0, q0, p1, q1, p2, q2]⟩)) := by
  cases hp0 : Map fuel g.collapse_map t.v0 g.render_num with
  | error e => simp [drawTriangle, hp0, bind, Except.bind] at h
  | ok x0 =>
  obtain ⟨p0, r0⟩ := x0
  cases hp1 : Map fuel g.collapse_map t.v1 g.render_num with
  | error e => simp [drawTriangle, hp0, hp1, bind, Except.bind] at h
  | ok x1 =>
  obtain ⟨p1, r1⟩ := x1
  cases hp2 : Map fuel g.collapse_map t.v2 g.render_num with
  | error e => simp [drawTriangle, hp0, hp1, hp2, bind, Except.bind] at h
  | ok x2 =>
  obtain ⟨p2, r2⟩ := x2
  refine ⟨p0, p1, p2, r0, r1, r2, rfl, rfl, rfl, ?_⟩
  by_cases hdeg : p0 = p1 ∨ p1 = p2 ∨ p2 = p0
  · rw [drawTriangle_skip fuel g t p0 p1 p2 r0 r1 r2 hp0 hp1 hp2 hdeg] at h
    cases h
    exact Or.inl ⟨hdeg, rfl⟩
  · refine Or.inr ⟨hdeg, ?_⟩
    cases hq0 : Map fuel g.collapse_map p0 (truncToInt (g.render_num * g.lodbase)) with
    | error e => simp [drawTriangle, hp0, hp1, hp2, hdeg, hq0, bind, Except.bind] at h
    | ok y0 =>
    obtain ⟨q0, s0⟩ := y0
    cases hq1 : Map fuel g.collapse_map p1 (truncToInt (g.render_num * g.lodbase)) with
    | error e => simp [drawTriangle, hp0, hp1, hp2, hdeg, hq0, hq1, bind, Except.bind] at h
    | ok y1 =>
    obtain ⟨q1, s1⟩ := y1
    cases hq2 : Map fuel g.collapse_map p2 (truncToInt (g.render_num * g.lodbase)) with
    | error e => simp [drawTriangle, hp0, hp1, hp2, hdeg, hq0, hq1, hq2, bind, Except.bind] at h
    | ok y2 =>
    obtain ⟨q2, s2⟩ := y2
    cases ha0 : vecGet g.vert p0 with
    | error e =>
      simp [drawTriangle, hp0, hp1, hp2, hdeg, hq0, hq1, hq2, ha0, bind, Except.bind] at h
    | ok a0 =>
    cases hb0 : vecGet g.vert q0 with
    | error e =>
      simp [drawTriangle, hp0, hp1, hp2, hdeg, hq0, hq1, hq2, ha0, hb0, bind, Except.bind] at h
    | ok b0 =>
    cases ha1 : vecGet g.vert p1 with
    | error e =>
      simp [drawTriangle, hp0, hp1, hp2, hdeg, hq0, hq1, hq2, ha0, hb0, ha1, bind,
        Except.bind] at h
    | ok a1 =>
    cases hb1 : vecGet g.vert q1 with
    | error e =>
      simp [drawTriangle, hp0, hp1, hp2, hdeg, hq0, hq1, hq2, ha0, hb0, ha1, hb1, bind,
        Except.bind] at h
    | ok b1 =>
    cases ha2 : vecGet g.vert p2 with
    | error e =>
      simp [drawTriangle, hp0, hp1, hp2, hdeg, hq0, hq1, hq2, ha0, hb0, ha1, hb1, ha2, bind,
        Except.bind] at h
    | ok a2 =>
    cases hb2 : vecGet g.vert q2 with
    | error e =>
      simp [drawTriangle, hp0, hp1, hp2, hdeg, hq0, hq1, hq2, ha0, hb0, ha1, hb1, ha2, hb2, bind,
        Except.bind] at h
    | ok b2 =>
    rw [drawTriangle_emit fuel g t p0 p1 p2 q0 q1 q2 r0 r1 r2 s0 s1 s2 a0 b0 a1 b1 a2 b2
      hp0 hp1 hp2 hdeg hq0 hq1 hq2 ha0 hb0 ha1 hb1 ha2 hb2] at h
    cases h
    refine ⟨q0, q1, q2, s0, s1, s2, a0, b0, a1, b1, a2, b2, ?_, ?_, ?_, ?_, ?_, ?_, ?_, ?_, ?_,
      rfl⟩ <;> first | rfl | assumption

/-- Everything in the log of a completed loop was already in the log or comes
from a completed iteration for one of the triangles visited. -/
theorem drawLoop_inv (fuel : Nat) (g : Globals) :
    ∀ (tris : List tridata) (i : Nat) (rpc : Int) (log : DrawLog) (rpc' : Int) (log' : DrawLog),
      drawLoop fuel g tris i rpc log = .ok (rpc', log') →
      (∀ poly ∈ log'.polygons, poly ∈ log.polygons ∨
        ∃ t ∈ tris, ∃ s, drawTriangle fuel g t = .ok s ∧ s.polygon = some poly) ∧
      (∀ r ∈ log'.mapReads, r ∈ log.mapReads ∨
        ∃ t ∈ tris, ∃ s, drawTriangle fuel g t = .ok s ∧ r ∈ s.mapReads) ∧
      (∀ r ∈ log'.vertReads, r ∈ log.vertReads ∨
        ∃ t ∈ tris, ∃ s, drawTriangle fuel g t = .ok s ∧ r ∈ s.vertReads) := by
  intro tris
  induction tris with
  | nil =>
    intro i rpc log rpc' log' h
    simp only [drawLoop] at h
    cases h
    exact ⟨fun _ hp => Or.inl hp, fun _ hr => Or.inl hr, fun _ hr => Or.inl hr⟩
  | cons t rest ih =>
    intro i rpc log rpc' log' h
    cases hs : drawTriangle fuel g t with
    | error e => simp [drawLoop, hs, bind, Except.bind] at h
    | ok s =>
      have lift : ∀ {P : TriStep → Prop},
          (∃ u ∈ rest, ∃ s', drawTriangle fuel g u = .ok s' ∧ P s') →
          ∃ u ∈ t :: rest, ∃ s', drawTriangle fuel g u = .ok s' ∧ P s' := by
        rintro P ⟨u, hu, s', h1, h2⟩
        exact ⟨u, List.mem_cons_of_mem _ hu, s', h1, h2⟩
      cases hpoly : s.polygon with
      | none =>
        simp only [drawLoop, hs, bind, Except.bind, hpoly] at h
        obtain ⟨h1, h2, h3⟩ := ih _ _ _ _ _ h
        refine ⟨?_, ?_, ?_⟩
        · intro poly hp
          rcases h1 poly hp with hin | hex
          · exact Or.inl hin
          · exact Or.inr (lift hex)
        · intro r hr
          rcases h2 r hr with hin | hex
          · rcases List.mem_append.mp hin with hl | hr'
            · exact Or.inl hl
            · exact Or.inr ⟨t, List.mem_cons_self _ _, s, hs, hr'⟩
          · exact Or.inr (lift hex)
        · intro r hr
          rcases h3 r hr with hin | hex
          · rcases List.mem_append.mp hin with hl | hr'
            · exact Or.inl hl
            · exact Or.inr ⟨t, List.mem_cons_self _ _, s, hs, hr'⟩
          · exact Or.inr (lift hex)
      | some poly0 =>
        simp only [drawLoop, hs, bind, Except.bind, hpoly] at h
        obtain ⟨h1, h2, h3⟩ := ih _ _ _ _ _ h
        refine ⟨?_, ?_, ?_⟩
        · intro poly hp
          rcases h1 poly hp with hin | hex
          · rcases List.mem_append.mp hin with hl | hr'
            · exact Or.inl hl
            · rw [List.mem_singleton] at hr'
              subst hr'
              exact Or.inr ⟨t, List.mem_cons_self _ _, s, hs, hpoly⟩
          · exact Or.inr (lift hex)
        · intro r hr
          rcases h2 r hr with hin | hex
          · rcases List.mem_append.mp hin with hl | hr'
            · exact Or.inl hl
            · exact Or.inr ⟨t, List.mem_cons_self _ _, s, hs, hr'⟩
          · exact Or.inr (lift hex)
        · intro r hr
          rcases h3 r hr with hin | hex
          · rcases List.mem_append.mp hin with hl | hr'
            · exact Or.inl hl
            · exact Or.inr ⟨t, List.mem_cons_self _ _, s, hs, hr'⟩
          · exact Or.inr (lift hex)

/-- Everything in the log of a completed render pass comes from a completed
iteration for one of the triangles of the buffer. -/
theorem DrawModelTriangles_inv (fuel : Nat) (g g' : Globals) (log : DrawLog)
    (h : DrawModelTriangles fuel g = .ok (g', log)) :
    g.collapse_map.length ≠ 0 ∧
    (∀ poly ∈ log.polygons,
      ∃ t ∈ g.tri, ∃ s, drawTriangle fuel g t = .ok s ∧ s.polygon = some poly) ∧
    (∀ r ∈ log.mapReads, ∃ t ∈ g.tri, ∃ s, drawTriangle fuel g t = .ok s ∧ r ∈ s.mapReads) ∧
    (∀ r ∈ log.vertReads, ∃ t ∈ g.tri, ∃ s, drawTriangle fuel g t = .ok s ∧ r ∈ s.vertReads) := by
  by_cases hne : g.collapse_map.length = 0
  · simp [DrawModelTriangles, hne] at h
  · cases hl : drawLoop fuel g g.tri 0 0 ⟨[], [], [], []⟩ with
    | error e => simp [DrawModelTriangles, hne, hl, bind, Except.bind] at h
    | ok r =>
      obtain ⟨rpc', log'⟩ := r
      simp only [DrawModelTriangles, hne, if_false, hl, bind, Except.bind, pure, Except.pure,
        Except.ok.injEq, Prod.mk.injEq] at h
      obtain ⟨_, rfl⟩ := h
      obtain ⟨h1, h2, h3⟩ := drawLoop_inv fuel g g.tri 0 0 ⟨[], [], [], []⟩ rpc' log' hl
      refine ⟨hne, ?_, ?_, ?_⟩
      · intro poly hp
        rcases h1 poly hp with hin | hex
        · exact absurd hin (List.not_mem_nil _)
        · exact hex
      · intro r hr
        rcases h2 r hr with hin | hex
        · exact absurd hin (List.not_mem_nil _)
        · exact hex
      · intro r hr
        rcases h3 r hr with hin | hex
        · exact absurd hin (List.not_mem_nil _)
        · exact hex

theorem checkDownward_sound (collapse_map : List Int) (h : checkDownward collapse_map = true) :
    CollapsesDownward collapse_map := by
  intro i h1 hN
  simp only [checkDownward, List.all_eq_true, List.mem_range, Bool.or_eq_true, beq_iff_eq] at h
  have hi := h i.toNat (by omega)
  rcases hi with h0 | hc
  · omega
  · cases hget : collapse_map[i.toNat]? with
    | none => simp [hget] at hc
    | some c =>
      simp only [hget, decide_eq_true_eq] at hc
      refine ⟨c, (vecGet_ok_iff _ _ _).mpr ⟨by omega, hget⟩, hc.1, ?_⟩
      have : ((i.toNat : Nat) : Int) = i := Int.toNat_of_nonneg (by omega)
      omega

theorem CollapsesDownward.invariant (collapse_map : List Int) (hN : 1 ≤ collapse_map.length)
    (hdown : CollapsesDownward collapse_map) : CollapseTableInvariant collapse_map := by
  refine ⟨hN, ?_⟩
  have key : ∀ (n : Nat) (i : Int), i.toNat ≤ n → 0 ≤ i → i < collapse_map.length →
      ∃ k, chain collapse_map k i = some 0 := by
    intro n
    induction n with
    | zero =>
      intro i hi h0 _
      have : i = 0 := by omega
      subst this
      exact ⟨0, rfl⟩
    | succ m ih =>
      intro i hi h0 hlt
      by_cases hz : i = 0
      · subst hz
        exact ⟨0, rfl⟩
      · obtain ⟨c, hc, hc0, hci⟩ := hdown i (by omega) hlt
        obtain ⟨k, hk⟩ := ih c (by omega) hc0 (by omega)
        exact ⟨k + 1, by rw [chain_succ_ok _ _ _ _ hc]; exact hk⟩
  intro i h0 hlt
  exact key i.toNat i (le_refl _) h0 hlt

/-- Every read of a completed iteration of the triangle loop is inside the
vector it reads, and no iteration reads `collapse_map[0]`. -/
theorem drawTriangle_reads (fuel : Nat) (g : Globals) (t : tridata) (s : TriStep)
    (h : drawTriangle fuel g t = .ok s) :
    (∀ r ∈ s.mapReads, 1 ≤ r ∧ r < g.collapse_map.length) ∧
    (∀ p ∈ s.vertReads, 0 ≤ p ∧ p < g.vert.length) := by
  obtain ⟨p0, p1, p2, r0, r1, r2, hp0, hp1, hp2, hcase⟩ := drawTriangle_inv fuel g t s h
  have m0 := Map_reads _ _ _ _ _ _ hp0
  have m1 := Map_reads _ _ _ _ _ _ hp1
  have m2 := Map_reads _ _ _ _ _ _ hp2
  rcases hcase with ⟨_, rfl⟩ | ⟨_, q0, q1, q2, s0, s1, s2, a0, b0, a1, b1, a2, b2, hq0, hq1, hq2,
    ha0, hb0, ha1, hb1, ha2, hb2, rfl⟩
  · refine ⟨?_, by simp⟩
    intro r hr
    simp only [List.mem_append] at hr
    rcases hr with (hr | hr) | hr
    · exact (m0 r hr).2
    · exact (m1 r hr).2
    · exact (m2 r hr).2
  · have n0 := Map_reads _ _ _ _ _ _ hq0
    have n1 := Map_reads _ _ _ _ _ _ hq1
    have n2 := Map_reads _ _ _ _ _ _ hq2
    refine ⟨?_, ?_⟩
    · intro r hr
      simp only [List.mem_append] at hr
      rcases hr with ((((hr | hr) | hr) | hr) | hr) | hr
      · exact (m0 r hr).2
      · exact (m1 r hr).2
      · exact (m2 r hr).2
      · exact (n0 r hr).2
      · exact (n1 r hr).2
      · exact (n2 r hr).2
    · intro p hp
      simp only [List.mem_cons, List.mem_singleton, List.not_mem_nil, or_false] at hp
      rcases hp with rfl | rfl | rfl | rfl | rfl | rfl
      · exact vecGet_range ha0
      · exact vecGet_range hb0
      · exact vecGet_range ha1
      · exact vecGet_range hb1
      · exact vecGet_range ha2
      · exact vecGet_range hb2

theorem morphBlend_one (a b : float3) : morphBlend a b 1 = a := by
  cases a
  simp [morphBlend, float3.scale, float3.add]

theorem morphBlend_zero (a b : float3) : morphBlend a b 0 = b := by
  cases b
  simp [morphBlend, float3.scale, float3.add]

theorem cornerPositions_eq (fuel : Nat) (g : Globals) (c p q : Int) (r s : List Int)
    (a b : float3) (hp : Map fuel g.collapse_map c g.render_num = .ok (p, r))
    (hq : Map fuel g.collapse_map p (truncToInt (g.render_num * g.lodbase)) = .ok (q, s))
    (ha : vecGet g.vert p = .ok a) (hb : vecGet g.vert q = .ok b) :
    cornerPositions fuel g c = .ok (a, b) := by
  simp only [cornerPositions, hp, hq, ha, hb, bind, Except.bind]
  rfl

theorem drawTriangle_nonpos (fuel : Nat) (g : Globals) (hrn : g.render_num ≤ 0) (t : tridata) :
    drawTriangle fuel g t = .ok ⟨none, [], []⟩ :=
  drawTriangle_skip fuel g t 0 0 0 [] [] [] (Map_nonpos _ _ _ _ hrn) (Map_nonpos _ _ _ _ hrn)
    (Map_nonpos _ _ _ _ hrn) (Or.inl rfl)

theorem drawLoop_nonpos (fuel : Nat) (g : Globals) (hrn : g.render_num ≤ 0) :
    ∀ (tris : List tridata) (i : Nat) (rpc : Int) (log : DrawLog),
      drawLoop fuel g tris i rpc log = .ok (rpc, log) := by
  intro tris
  induction tris with
  | nil => intro i rpc log; rfl
  | cons t rest ih =>
    intro i rpc log
    simp only [drawLoop, drawTriangle_nonpos fuel g hrn t, bind, Except.bind, List.append_nil]
    exact ih (i + 1) rpc log

/-! ### Further claims about the render pass -/

/-- C11 (morph endpoints, over exact arithmetic): every polygon emitted by a
completed render pass comes from a triangle of the buffer, and for each of its
three corners, with `vert[p]` and `vert[q]` the positions at the primary index
`p = Map(corner, render_num)` and the secondary index
`q = Map(p, (int)(render_num*lodbase))`, the emitted position is
`vert[p]*morph + vert[q]*(1-morph)`; it is `vert[p]` when `morph = 1` and
`vert[q]` when `morph = 0`. -/
theorem DrawModelTriangles_morph_endpoints (fuel : Nat) (g g' : Globals) (log : DrawLog)
    (h : DrawModelTriangles fuel g = .ok (g', log)) :
    ∀ poly ∈ log.polygons, ∃ t ∈ g.tri, ∃ a0 b0 a1 b1 a2 b2,
      cornerPositions fuel g t.v0 = .ok (a0, b0) ∧
      cornerPositions fuel g t.v1 = .ok (a1, b1) ∧
      cornerPositions fuel g t.v2 = .ok (a2, b2) ∧
      poly.v0 = morphBlend a0 b0 g.morph ∧ poly.v1 = morphBlend a1 b1 g.morph ∧
      poly.v2 = morphBlend a2 b2 g.morph ∧
      (g.morph = 1 → poly.v0 = a0 ∧ poly.v1 = a1 ∧ poly.v2 = a2) ∧
      (g.morph = 0 → poly.v0 = b0 ∧ poly.v1 = b1 ∧ poly.v2 = b2) := by
  intro poly hpoly
  obtain ⟨_, hp, _, _⟩ := DrawModelTriangles_inv fuel g g' log h
  obtain ⟨t, ht, s, hs, hsp⟩ := hp poly hpoly
  obtain ⟨p0, p1, p2, r0, r1, r2, hp0, hp1, hp2, hcase⟩ := drawTriangle_inv fuel g t s hs
  rcases hcase with ⟨_, rfl⟩ | ⟨_, q0, q1, q2, s0, s1, s2, a0, b0, a1, b1, a2, b2, hq0, hq1, hq2,
    ha0, hb0, ha1, hb1, ha2, hb2, rfl⟩
  · cases hsp
  · simp only [Option.some.injEq] at hsp
    subst hsp
    refine ⟨t, ht, a0, b0, a1, b1, a2, b2,
      cornerPositions_eq fuel g t.v0 p0 q0 r0 s0 a0 b0 hp0 hq0 ha0 hb0,
      cornerPositions_eq fuel g t.v1 p1 q1 r1 s1 a1 b1 hp1 hq1 ha1 hb1,
      cornerPositions_eq fuel g t.v2 p2 q2 r2 s2 a2 b2 hp2 hq2 ha2 hb2, rfl, rfl, rfl, ?_, ?_⟩
    · intro hm
      simp [emitPolygon, hm, morphBlend_one]
    · intro hm
      simp [emitPolygon, hm, morphBlend_zero]

/-- Witness of C11: the tetrahedron of the specification at budget 3, where the
pass emits two polygons, with `morph = 0`. -/
theorem DrawModelTriangles_morph_endpoints_witness :
    (withMorph (tetrahedron 3 17) 0).morph = 0 ∧
    ∃ g' log, DrawModelTriangles 4 (withMorph (tetrahedron 3 17) 0) = .ok (g', log) ∧
      log.polygons.length = 2 ∧
      ∀ poly ∈ log.polygons, ∃ t ∈ (withMorph (tetrahedron 3 17) 0).tri, ∃ a0 b0 a1 b1 a2 b2,
        cornerPositions 4 (withMorph (tetrahedron 3 17) 0) t.v0 = .ok (a0, b0) ∧
        cornerPositions 4 (withMorph (tetrahedron 3 17) 0) t.v1 = .ok (a1, b1) ∧
        cornerPositions 4 (withMorph (tetrahedron 3 17) 0) t.v2 = .ok (a2, b2) ∧
        poly.v0 = morphBlend a0 b0 (withMorph (tetrahedron 3 17) 0).morph ∧
        poly.v1 = morphBlend a1 b1 (withMorph (tetrahedron 3 17) 0).morph ∧
        poly.v2 = morphBlend a2 b2 (withMorph (tetrahedron 3 17) 0).morph ∧
        ((withMorph (tetrahedron 3 17) 0).morph = 1 → poly.v0 = a0 ∧ poly.v1 = a1 ∧ poly.v2 = a2) ∧
        ((withMorph (tetrahedron 3 17) 0).morph = 0 →
          poly.v0 = b0 ∧ poly.v1 = b1 ∧ poly.v2 = b2) := by
  obtain ⟨log, h, _, hlen⟩ := DrawModelTriangles_ok 4 (withMorph (tetrahedron 3 17) 0)
    ⟨rfl, checkCorners_sound _ _ (by decide)⟩ (checkInvariant_sound _ (by decide)) (by decide)
  have hcount : (withMorph (tetrahedron 3 17) 0).tri.countP
      (nonDegenerate 4 (withMorph (tetrahedron 3 17) 0).collapse_map
        (withMorph (tetrahedron 3 17) 0).render_num) = 2 := by decide
  exact ⟨rfl, _, log, h, hlen.trans hcount,
    DrawModelTriangles_morph_endpoints 4 (withMorph (tetrahedron 3 17) 0) _ log h⟩

/-- C14 (graceful degradation): with a non-empty collapse table, whatever it
holds, and `render_num ≤ 0`, for any triangle and vertex buffers,
`DrawModelTriangles` resolves every corner to vertex 0 without a look-up and
completes: it reads no entry of `collapse_map` or `vert`, emits no triangle and
leaves `renderpolycount = 0`. -/
theorem DrawModelTriangles_nonpositive_budget (fuel : Nat) (g : Globals)
    (hne : g.collapse_map ≠ []) (hrn : g.render_num ≤ 0) :
    (∀ t ∈ g.tri, Map fuel g.collapse_map t.v0 g.render_num = .ok (0, []) ∧
      Map fuel g.collapse_map t.v1 g.render_num = .ok (0, []) ∧
      Map fuel g.collapse_map t.v2 g.render_num = .ok (0, [])) ∧
    DrawModelTriangles fuel g =
      .ok (⟨g.render_num, g.lodbase, g.morph, g.vert, g.tri, g.collapse_map, 0⟩,
        ⟨[], [], [], []⟩) := by
  refine ⟨fun t _ => ⟨Map_nonpos _ _ _ _ hrn, Map_nonpos _ _ _ _ hrn, Map_nonpos _ _ _ _ hrn⟩, ?_⟩
  have hlen : ¬ g.collapse_map.length = 0 := fun h => hne (List.length_eq_zero.mp h)
  simp only [DrawModelTriangles, hlen, if_false, drawLoop_nonpos fuel g hrn, bind, Except.bind]
  rfl

/-- Witness of C14: a negative budget, the cyclic table, no vertex and triangle
corners that are no indices, with no loop iteration allowed. -/
theorem DrawModelTriangles_nonpositive_budget_witness :
    brokenMesh.collapse_map ≠ [] ∧ brokenMesh.render_num ≤ 0 ∧
    ¬ CollapseTableInvariant brokenMesh.collapse_map ∧
    (∀ t ∈ brokenMesh.tri,
      Map 0 brokenMesh.collapse_map t.v0 brokenMesh.render_num = .ok (0, []) ∧
      Map 0 brokenMesh.collapse_map t.v1 brokenMesh.render_num = .ok (0, []) ∧
      Map 0 brokenMesh.collapse_map t.v2 brokenMesh.render_num = .ok (0, [])) ∧
    DrawModelTriangles 0 brokenMesh =
      .ok (⟨brokenMesh.render_num, brokenMesh.lodbase, brokenMesh.morph, brokenMesh.vert,
        brokenMesh.tri, brokenMesh.collapse_map, 0⟩, ⟨[], [], [], []⟩) :=
  ⟨by decide, by decide, cycleTable_not_invariant,
    DrawModelTriangles_nonpositive_budget 0 brokenMesh (by decide) (by decide)⟩

/-- C20 (index safety of the render pass): if `vert` and `collapse_map` both have
length `N ≥ 1`, every triangle corner lies in `[0,N)` and `collapse_map[i]` lies
in `[0,i)` for every `i` in `[1,N)` (`collapse_map[0]` arbitrary), then
`DrawModelTriangles` completes (no access is out of bounds and the assertion
holds), every read `collapse_map[a]` has `1 ≤ a < N`, and every read `vert[p]`
has `0 ≤ p < N`. -/
theorem DrawModelTriangles_index_safety (fuel : Nat) (g : Globals)
    (hvert : g.vert.length = g.collapse_map.length) (hN : 1 ≤ g.collapse_map.length)
    (htri : CornersInRange g.tri g.collapse_map.length)
    (hdown : CollapsesDownward g.collapse_map) (hfuel : g.collapse_map.length ≤ fuel) :
    g.collapse_map.length ≠ 0 ∧
    ∃ g' log, DrawModelTriangles fuel g = .ok (g', log) ∧
      (∀ a ∈ log.mapReads, 1 ≤ a ∧ a < g.collapse_map.length) ∧
      (∀ p ∈ log.vertReads, 0 ≤ p ∧ p < g.collapse_map.length) := by
  have hinv := CollapsesDownward.invariant g.collapse_map hN hdown
  obtain ⟨log, h, _, _⟩ := DrawModelTriangles_ok fuel g ⟨hvert, htri⟩ hinv hfuel
  obtain ⟨_, _, hm, hv⟩ := DrawModelTriangles_inv fuel g _ log h
  refine ⟨by omega, _, log, h, ?_, ?_⟩
  · intro a ha
    obtain ⟨t, _, s, hs, has⟩ := hm a ha
    exact (drawTriangle_reads fuel g t s hs).1 a has
  · intro p hp
    obtain ⟨t, _, s, hs, hps⟩ := hv p hp
    have := (drawTriangle_reads fuel g t s hs).2 p hps
    omega

/-- Witness of C20: the tetrahedron of the specification at budget 3 with the
Collapse Table `[-1,0,0,0]`. -/
theorem DrawModelTriangles_index_safety_witness :
    (withTable (tetrahedron 3 17) [-1, 0, 0, 0]).vert.length =
      (withTable (tetrahedron 3 17) [-1, 0, 0, 0]).collapse_map.length ∧
    1 ≤ (withTable (tetrahedron 3 17) [-1, 0, 0, 0]).collapse_map.length ∧
    CornersInRange (withTable (tetrahedron 3 17) [-1, 0, 0, 0]).tri
      (withTable (tetrahedron 3 17) [-1, 0, 0, 0]).collapse_map.length ∧
    CollapsesDownward (withTable (tetrahedron 3 17) [-1, 0, 0, 0]).collapse_map ∧
    (withTable (tetrahedron 3 17) [-1, 0, 0, 0]).collapse_map.length ≤ 4 ∧
    (withTable (tetrahedron 3 17) [-1, 0, 0, 0]).collapse_map.length ≠ 0 ∧
    ∃ g' log, DrawModelTriangles 4 (withTable (tetrahedron 3 17) [-1, 0, 0, 0]) = .ok (g', log) ∧
      (∀ a ∈ log.mapReads,
        1 ≤ a ∧ a < (withTable (tetrahedron 3 17) [-1, 0, 0, 0]).collapse_map.length) ∧
      (∀ p ∈ log.vertReads,
        0 ≤ p ∧ p < (withTable (tetrahedron 3 17) [-1, 0, 0, 0]).collapse_map.length) :=
  ⟨rfl, by decide, checkCorners_sound _ _ (by decide), checkDownward_sound _ (by decide),
    by decide,
    DrawModelTriangles_index_safety 4 (withTable (tetrahedron 3 17) [-1, 0, 0, 0]) rfl
      (by decide) (checkCorners_sound _ _ (by decide)) (checkDownward_sound _ (by decide))
      (by decide)⟩

/-! ### The vertex permutation, in full -/

theorem vecGet_mem {α : Type} {xs : List α} {i : Int} {x : α} (h : vecGet xs i = .ok x) :
    x ∈ xs :=
  List.getElem?_mem ((vecGet_ok_iff xs i x).mp h).2

/-- With a bijection on `[0,N)` and triangle corners in `[0,N)`,
`PermuteVertices` completes; the new vertex buffer has the old vertex `i` at
index `permutation[i]` and every corner is replaced by `permutation` at the old
corner. -/
theorem PermuteVertices_bij (permutation : List Int) (g : Globals)
    (hbij : BijectionOn permutation g.vert.length)
    (htri : CornersInRange g.tri g.vert.length) :
    ∃ vert' tri', PermuteVertices permutation g =
        .ok ⟨g.render_num, g.lodbase, g.morph, vert', tri', g.collapse_map, g.renderpolycount⟩ ∧
      vert'.length = g.vert.length ∧
      (∀ (i : Nat) (p : Int) (x : float3), permutation[i]? = some p → g.vert[i]? = some x →
        vert'[p.toNat]? = some x) ∧
      tri'.length = g.tri.length ∧
      CornersInRange tri' g.vert.length ∧
      ∀ (i : Nat) (t : tridata), g.tri[i]? = some t → ∃ t' : tridata, tri'[i]? = some t' ∧
        vecGet permutation t.v0 = .ok t'.v0 ∧ vecGet permutation t.v1 = .ok t'.v1 ∧
        vecGet permutation t.v2 = .ok t'.v2 := by
  obtain ⟨hlen, hval, hnd⟩ := hbij
  obtain ⟨vert', tri', h, hs, ht⟩ := PermuteVertices_ok permutation g hlen hval htri
  obtain ⟨vert'', h1, h2, _, h4⟩ := storeVertices_ok permutation g.vert hlen.symm
    (List.range g.vert.length) g.vert (fun i hi => by rw [hlen]; exact List.mem_range.mp hi) hval
  rw [hs] at h1
  cases h1
  obtain ⟨tri'', k1, k2, k3⟩ :=
    permuteTriangles_ok permutation g.tri (by rw [hlen]; exact htri)
  rw [ht] at k1
  cases k1
  refine ⟨vert', tri', h, h2, ?_, k2, ?_, k3⟩
  · intro i p x hp hx
    have hi : i < g.vert.length := (List.getElem?_eq_some_iff.mp hx).1
    exact h4 (List.nodup_range _) hnd i (List.mem_range.mpr hi) p x hp hx
  · intro t' ht'
    obtain ⟨i, hi⟩ := List.getElem?_of_mem ht'
    have hlt : i < g.tri.length := by
      have := (List.getElem?_eq_some_iff.mp hi).1
      omega
    obtain ⟨u, hu, e0, e1, e2⟩ := k3 i g.tri[i] (List.getElem?_eq_getElem hlt)
    rw [hi] at hu
    cases hu
    exact ⟨hval _ (vecGet_mem e0), hval _ (vecGet_mem e1), hval _ (vecGet_mem e2)⟩

theorem toNat_perm_range (permutation : List Int) (N : Nat)
    (hbij : BijectionOn permutation N) : (permutation.map Int.toNat).Perm (List.range N) := by
  obtain ⟨hlen, hval, hnd⟩ := hbij
  have hnd' : (permutation.map Int.toNat).Nodup := by
    apply List.Nodup.map_on _ hnd
    intro x hx y hy hxy
    have := (hval x hx).1
    have := (hval y hy).1
    omega
  have hsub : permutation.map Int.toNat ⊆ List.range N := by
    intro n hn
    obtain ⟨x, hx, rfl⟩ := List.mem_map.mp hn
    have := hval x hx
    exact List.mem_range.mpr (by omega)
  exact (List.subperm_of_subset hnd' hsub).perm_of_length_le (by simp [hlen])

/-- A list whose entry `permutation[i]` is the entry `i` of another list, for a
bijection `permutation`, is a rearrangement of that list. -/
theorem perm_of_moved (permutation : List Int) (old new : List float3)
    (hbij : BijectionOn permutation old.length) (hlen : new.length = old.length)
    (hmove : ∀ (i : Nat) (p : Int) (x : float3), permutation[i]? = some p → old[i]? = some x →
      new[p.toNat]? = some x) : new.Perm old := by
  have hperm := toNat_perm_range permutation old.length hbij
  obtain ⟨hplen, _, _⟩ := hbij
  have e1 : old = (permutation.map Int.toNat).map (fun j => (new[j]?).getD ⟨0, 0, 0⟩) := by
    apply List.ext_getElem?
    intro i
    by_cases hi : i < old.length
    · have hp : permutation[i]? = some permutation[i] := List.getElem?_eq_getElem (by omega)
      have hx : old[i]? = some old[i] := List.getElem?_eq_getElem hi
      rw [List.getElem?_map, List.getElem?_map, hp, hx]
      simp [hmove i _ _ hp hx]
    · rw [List.getElem?_eq_none (by omega), List.getElem?_eq_none (by simp; omega)]
  have e2 : new = (List.range old.length).map (fun j => (new[j]?).getD ⟨0, 0, 0⟩) := by
    apply List.ext_getElem?
    intro i
    by_cases hi : i < old.length
    · have hn : new[i]? = some new[i] := List.getElem?_eq_getElem (by omega)
      rw [List.getElem?_map, List.getElem?_range hi, hn]
      simp [hn]
    · rw [List.getElem?_eq_none (by omega), List.getElem?_eq_none (by simp; omega)]
  rw [e2]
  conv_rhs => rw [e1]
  exact (hperm.map _).symm

theorem moved_corner (permutation : List Int) (old new : List float3)
    (hval : ValuesInRange permutation old.length)
    (hmove : ∀ (i : Nat) (p : Int) (x : float3), permutation[i]? = some p → old[i]? = some x →
      new[p.toNat]? = some x)
    (c p : Int) (hc : 0 ≤ c ∧ c < old.length) (hp : vecGet permutation c = .ok p) :
    ∃ x, vecGet old c = .ok x ∧ vecGet new p = .ok x := by
  obtain ⟨x, hx⟩ := vecGet_ok_of_range old c hc.1 hc.2
  refine ⟨x, hx, ?_⟩
  rw [vecGet_ok_iff] at hp hx ⊢
  exact ⟨(hval p (List.getElem?_mem hp.2)).1, hmove c.toNat p x hp.2 hx.2⟩

/-! ### Further claims about `PermuteVertices` -/

/-- C12, as amended: a permutation array whose length differs from the length
`N` of the vertex buffer makes `PermuteVertices` fail at the assertion of line
124, before any buffer is rewritten.  (An array of length `N` is not examined
further.) -/
theorem PermuteVertices_length_mismatch (permutation : List Int) (g : Globals)
    (hlen : permutation.length ≠ g.vert.length) :
    PermuteVertices permutation g = .error .assertFailed := by
  simp [PermuteVertices, hlen]

/-- Witness of C12 as amended: an array of length 1 for the four vertices of the
tetrahedron. -/
theorem PermuteVertices_length_mismatch_witness :
    ([0] : List Int).length ≠ (tetrahedron 4 0).vert.length ∧
    PermuteVertices [0] (tetrahedron 4 0) = .error .assertFailed :=
  ⟨by decide, PermuteVertices_length_mismatch [0] (tetrahedron 4 0) (by decide)⟩

/-- Counterexample to C12 as stated: the array `[0,0,1,2]` has the length of the
vertex buffer of the tetrahedron and is not a bijection on `[0,4)` (target 0 is
used twice, target 3 never), yet `PermuteVertices` completes and rewrites the
vertex and triangle buffers. -/
theorem PermuteVertices_not_bijective_counterexample :
    ([0, 0, 1, 2] : List Int).length = (tetrahedron 4 0).vert.length ∧
    ¬ BijectionOn [0, 0, 1, 2] (tetrahedron 4 0).vert.length ∧
    PermuteVertices [0, 0, 1, 2] (tetrahedron 4 0) =
      .ok ⟨4, 1 / 2, 1, [⟨1, 0, 0⟩, ⟨0, 1, 0⟩, ⟨0, 0, 1⟩, ⟨0, 0, 1⟩],
        [⟨0, 0, 1⟩, ⟨0, 2, 0⟩, ⟨0, 1, 2⟩, ⟨0, 2, 1⟩], [0, 0, 0, 0], 0⟩ :=
  ⟨rfl, by unfold BijectionOn; decide, rfl⟩

/-- C13: `PermuteVertices` is not idempotent.  For a bijection on `[0,N)` and
triangle corners in `[0,N)`, two calls complete and leave the buffers permuted by
`permutation` composed with itself: the old vertex `i` is at index
`permutation[permutation[i]]` and every corner `c` has become
`permutation[permutation[c]]`.  Whenever `permutation` moves a corner of some
triangle, the triangle buffer after the second call differs from the one after
the first call. -/
theorem PermuteVertices_twice (permutation : List Int) (g : Globals)
    (hbij : BijectionOn permutation g.vert.length)
    (htri : CornersInRange g.tri g.vert.length) :
    ∃ g1 g2, PermuteVertices permutation g = .ok g1 ∧ PermuteVertices permutation g1 = .ok g2 ∧
      (∀ i : Nat, i < g.vert.length → ∃ p1 p2 x, vecGet permutation i = .ok p1 ∧
        vecGet permutation p1 = .ok p2 ∧ vecGet g.vert i = .ok x ∧ vecGet g2.vert p2 = .ok x) ∧
      (∀ (i : Nat) (t : tridata), g.tri[i]? = some t → ∃ t1 t2 : tridata,
        g1.tri[i]? = some t1 ∧ g2.tri[i]? = some t2 ∧
        vecGet permutation t.v0 = .ok t1.v0 ∧ vecGet permutation t1.v0 = .ok t2.v0 ∧
        vecGet permutation t.v1 = .ok t1.v1 ∧ vecGet permutation t1.v1 = .ok t2.v1 ∧
        vecGet permutation t.v2 = .ok t1.v2 ∧ vecGet permutation t1.v2 = .ok t2.v2) ∧
      ((∃ t ∈ g.tri, ∃ c p, (c = t.v0 ∨ c = t.v1 ∨ c = t.v2) ∧
          vecGet permutation c = .ok p ∧ p ≠ c) →
        g2.tri ≠ g1.tri ∧ g2 ≠ g1) := by
  obtain ⟨vert1, tri1, h1, hl1, hm1, _, hc1, ht1⟩ := PermuteVertices_bij permutation g hbij htri
  have hbij1 : BijectionOn permutation vert1.length := by rw [hl1]; exact hbij
  have hc1' : CornersInRange tri1 vert1.length := by rw [hl1]; exact hc1
  obtain ⟨vert2, tri2, h2, _, hm2, _, _, ht2⟩ :=
    PermuteVertices_bij permutation
      ⟨g.render_num, g.lodbase, g.morph, vert1, tri1, g.collapse_map, g.renderpolycount⟩
      hbij1 hc1'
  obtain ⟨hlen, hval, hnd⟩ := hbij
  have hpairs : ∀ (i : Nat) (t : tridata), g.tri[i]? = some t → ∃ t1 t2 : tridata,
      tri1[i]? = some t1 ∧ tri2[i]? = some t2 ∧
      vecGet permutation t.v0 = .ok t1.v0 ∧ vecGet permutation t1.v0 = .ok t2.v0 ∧
      vecGet permutation t.v1 = .ok t1.v1 ∧ vecGet permutation t1.v1 = .ok t2.v1 ∧
      vecGet permutation t.v2 = .ok t1.v2 ∧ vecGet permutation t1.v2 = .ok t2.v2 := by
    intro i t hit
    obtain ⟨t1, e1, a0, a1, a2⟩ := ht1 i t hit
    obtain ⟨t2, e2, b0, b1, b2⟩ := ht2 i t1 e1
    exact ⟨t1, t2, e1, e2, a0, b0, a1, b1, a2, b2⟩
  refine ⟨_, _, h1, h2, ?_, hpairs, ?_⟩
  · intro i hi
    have hi' : i < permutation.length := by omega
    have hp : permutation[i]? = some permutation[i] := List.getElem?_eq_getElem hi'
    have hx : g.vert[i]? = some g.vert[i] := List.getElem?_eq_getElem hi
    obtain ⟨hp0, hpN⟩ := hval _ (List.getElem_mem hi')
    obtain ⟨p2, hp2⟩ := vecGet_ok_of_range permutation permutation[i] hp0 (by omega)
    have hv1 : vert1[permutation[i].toNat]? = some g.vert[i] := hm1 i _ _ hp hx
    have hv2 : vert2[p2.toNat]? = some g.vert[i] :=
      hm2 permutation[i].toNat p2 _ ((vecGet_ok_iff _ _ _).mp hp2).2 hv1
    exact ⟨permutation[i], p2, g.vert[i], vecGet_nat _ _ _ hp, hp2, vecGet_nat _ _ _ hx,
      (vecGet_ok_iff _ _ _).mpr ⟨(hval p2 (vecGet_mem hp2)).1, hv2⟩⟩
  · rintro ⟨t, ht, c, p, hc, hcp, hne⟩
    have htri_ne : tri2 ≠ tri1 := by
      intro heq
      obtain ⟨i, hi⟩ := List.getElem?_of_mem ht
      obtain ⟨t1, t2, e1, e2, a0, b0, a1, b1, a2, b2⟩ := hpairs i t hi
      rw [heq, e1] at e2
      cases e2
      have fixed : ∀ c p : Int, vecGet permutation c = .ok p → vecGet permutation p = .ok p →
          p = c := by
        intro c p hc hp
        rw [vecGet_ok_iff] at hc hp
        have hlt : p.toNat < permutation.length := (List.getElem?_eq_some_iff.mp hp.2).1
        have := List.getElem?_inj hlt hnd (hp.2.trans hc.2.symm)
        omega
      rcases hc with rfl | rfl | rfl
      · rw [a0] at hcp
        cases hcp
        exact hne (fixed _ _ a0 b0)
      · rw [a1] at hcp
        cases hcp
        exact hne (fixed _ _ a1 b1)
      · rw [a2] at hcp
        cases hcp
        exact hne (fixed _ _ a2 b2)
    exact ⟨htri_ne, fun heq => htri_ne (congrArg Globals.tri heq)⟩

/-- Witness of C13: the tetrahedron of the specification under the cyclic
permutation `[1,2,3,0]`, which moves corner 0 of the first triangle to 1; the
buffers after the second call differ from those after the first. -/
theorem PermuteVertices_twice_witness :
    BijectionOn [1, 2, 3, 0] (tetrahedron 4 0).vert.length ∧
    CornersInRange (tetrahedron 4 0).tri (tetrahedron 4 0).vert.length ∧
    ∃ g1 g2, PermuteVertices [1, 2, 3, 0] (tetrahedron 4 0) = .ok g1 ∧
      PermuteVertices [1, 2, 3, 0] g1 = .ok g2 ∧ g2.tri ≠ g1.tri ∧ g2 ≠ g1 := by
  have hbij : BijectionOn [1, 2, 3, 0] (tetrahedron 4 0).vert.length :=
    ⟨rfl, by decide, by decide⟩
  have htri : CornersInRange (tetrahedron 4 0).tri (tetrahedron 4 0).vert.length :=
    checkCorners_sound _ _ (by decide)
  obtain ⟨g1, g2, h1, h2, _, _, hne⟩ :=
    PermuteVertices_twice [1, 2, 3, 0] (tetrahedron 4 0) hbij htri
  exact ⟨hbij, htri, g1, g2, h1, h2,
    hne ⟨⟨0, 1, 2⟩, by decide, 0, 1, Or.inl rfl, rfl, by decide⟩⟩

/-- C19: `PermuteVertices` preserves the geometry of the mesh.  For a bijection
on `[0,N)` and triangle corners in `[0,N)` the call completes; for every triangle
and each of its corners the new vertex buffer holds, at the new corner, the
position that the old vertex buffer held at the old corner; and the new vertex
buffer is a rearrangement of the old one. -/
theorem PermuteVertices_geometry (permutation : List Int) (g : Globals)
    (hbij : BijectionOn permutation g.vert.length)
    (htri : CornersInRange g.tri g.vert.length) :
    ∃ g', PermuteVertices permutation g = .ok g' ∧
      (∀ (i : Nat) (t : tridata), g.tri[i]? = some t → ∃ (t' : tridata) (x0 x1 x2 : float3),
        g'.tri[i]? = some t' ∧
        vecGet g.vert t.v0 = .ok x0 ∧ vecGet g'.vert t'.v0 = .ok x0 ∧
        vecGet g.vert t.v1 = .ok x1 ∧ vecGet g'.vert t'.v1 = .ok x1 ∧
        vecGet g.vert t.v2 = .ok x2 ∧ vecGet g'.vert t'.v2 = .ok x2) ∧
      g'.vert.Perm g.vert := by
  obtain ⟨vert', tri', h, hl, hm, _, _, ht⟩ := PermuteVertices_bij permutation g hbij htri
  refine ⟨_, h, ?_, perm_of_moved permutation g.vert vert' hbij hl hm⟩
  intro i t hit
  obtain ⟨t', e, a0, a1, a2⟩ := ht i t hit
  obtain ⟨c0, c1, c2⟩ := htri t (List.getElem?_mem hit)
  obtain ⟨x0, hx0, hy0⟩ := moved_corner permutation g.vert vert' hbij.2.1 hm t.v0 t'.v0 c0 a0
  obtain ⟨x1, hx1, hy1⟩ := moved_corner permutation g.vert vert' hbij.2.1 hm t.v1 t'.v1 c1 a1
  obtain ⟨x2, hx2, hy2⟩ := moved_corner permutation g.vert vert' hbij.2.1 hm t.v2 t'.v2 c2 a2
  exact ⟨t', x0, x1, x2, e, hx0, hy0, hx1, hy1, hx2, hy2⟩

/-- Witness of C19: the tetrahedron of the specification under the permutation
`[2,0,3,1]`. -/
theorem PermuteVertices_geometry_witness :
    BijectionOn [2, 0, 3, 1] (tetrahedron 4 0).vert.length ∧
    CornersInRange (tetrahedron 4 0).tri (tetrahedron 4 0).vert.length ∧
    ∃ g', PermuteVertices [2, 0, 3, 1] (tetrahedron 4 0) = .ok g' ∧
      (∀ (i : Nat) (t : tridata), (tetrahedron 4 0).tri[i]? = some t →
        ∃ (t' : tridata) (x0 x1 x2 : float3), g'.tri[i]? = some t' ∧
          vecGet (tetrahedron 4 0).vert t.v0 = .ok x0 ∧ vecGet g'.vert t'.v0 = .ok x0 ∧
          vecGet (tetrahedron 4 0).vert t.v1 = .ok x1 ∧ vecGet g'.vert t'.v1 = .ok x1 ∧
          vecGet (tetrahedron 4 0).vert t.v2 = .ok x2 ∧ vecGet g'.vert t'.v2 = .ok x2) ∧
      g'.vert.Perm (tetrahedron 4 0).vert :=
  ⟨⟨rfl, by decide, by decide⟩, checkCorners_sound _ _ (by decide),
    PermuteVertices_geometry [2, 0, 3, 1] (tetrahedron 4 0) ⟨rfl, by decide, by decide⟩
      (checkCorners_sound _ _ (by decide))⟩

/-! ### The parameter animation -/

theorem keyLoop_stops (time : ℚ) :
    ∀ (ahead : List keyframethings) (k : Int), (∃ key ∈ ahead, time ≤ key.t) →
      ∃ j : Nat, j < ahead.length ∧ keyLoop time ahead k = .ok (k + j) := by
  intro ahead
  induction ahead with
  | nil =>
    rintro k ⟨key, hkey, _⟩
    cases hkey
  | cons key rest ih =>
    rintro k ⟨key', hmem, hle⟩
    by_cases hgt : time > key.t
    · have hrest : ∃ key ∈ rest, time ≤ key.t := by
        rcases List.mem_cons.mp hmem with rfl | hin
        · exact absurd hle (not_le.mpr hgt)
        · exact ⟨key', hin, hle⟩
      obtain ⟨j, hj, hloop⟩ := ih (k + 1) hrest
      refine ⟨j + 1, by simpa using hj, ?_⟩
      simp only [keyLoop, hgt, if_true, hloop]
      congr 1
      push_cast
      ring
    · exact ⟨0, by simp, by simp [keyLoop, hgt]⟩

/-- For a clock below 50 the keyframe search stops inside the table, at a `k`
for which `keys[k]` and `keys[k+1]` both exist. -/
theorem keyLoop_ok (time : ℚ) (h : time < 50) :
    ∃ k key0 key1, keyLoop time keys.tail 0 = .ok k ∧ vecGet keys k = .ok key0 ∧
      vecGet keys (k + 1) = .ok key1 := by
  obtain ⟨j, hj, hloop⟩ := keyLoop_stops time keys.tail 0
    ⟨⟨50, 1, 0, 1, 0⟩, by simp [keys], le_of_lt h⟩
  have hlen : keys.length = 14 := rfl
  have hj' : j < 13 := hj
  obtain ⟨key0, h0⟩ := vecGet_ok_of_range keys (0 + (j : Int)) (by omega) (by rw [hlen]; omega)
  obtain ⟨key1, h1⟩ :=
    vecGet_ok_of_range keys (0 + (j : Int) + 1) (by omega) (by rw [hlen]; omega)
  exact ⟨_, key0, key1, hloop, h0, h1⟩

theorem AnimateParameters_ok (DeltaT time : ℚ) (g : Globals) :
    ∃ time' g', AnimateParameters DeltaT time g = .ok (time', g') ∧
      0 ≤ g'.render_num ∧ g'.render_num ≤ g.vert.length ∧ g'.morph ≤ 1 ∧
      g'.vert = g.vert ∧ g'.tri = g.tri ∧ g'.collapse_map = g.collapse_map ∧
      g'.lodbase = g.lodbase := by
  have hlt : (if time + DeltaT ≥ 50 then (0 : ℚ) else time + DeltaT) < 50 := by
    split_ifs with h
    · norm_num
    · exact not_le.mp h
  obtain ⟨k, key0, key1, hloop, h0, h1⟩ := keyLoop_ok _ hlt
  simp only [AnimateParameters, hloop, h0, h1, bind, Except.bind, pure, Except.pure]
  refine ⟨_, _, rfl, ?_, ?_, ?_, rfl, rfl, rfl, rfl⟩
  · show (0 : Int) ≤ ite _ _ _
    split_ifs <;> omega
  · show ite _ _ _ ≤ (g.vert.length : Int)
    split_ifs <;> omega
  · show ite _ _ _ ≤ (1 : ℚ)
    split_ifs <;> first | exact le_refl _ | linarith

/-! ### Claims about the parameter animation -/

/-- C16: for every `DeltaT` and every prior value of the animation clock,
`AnimateParameters(DeltaT)` completes (over exact arithmetic) and leaves
`0 ≤ render_num ≤ vert.size()` and `morph ≤ 1`, with the buffers untouched;
`RenderModel` calls `DrawModelTriangles` on exactly that state, so only with a
budget clamped to `[0, vert.size()]`. -/
theorem AnimateParameters_clamps (DeltaT time : ℚ) (g : Globals) :
    ∃ time' g', AnimateParameters DeltaT time g = .ok (time', g') ∧
      0 ≤ g'.render_num ∧ g'.render_num ≤ g'.vert.length ∧ g'.morph ≤ 1 ∧
      g'.vert = g.vert ∧ g'.tri = g.tri ∧ g'.collapse_map = g.collapse_map ∧
      ∀ fuel, RenderModel fuel DeltaT time g =
        match DrawModelTriangles fuel g' with
        | .ok (g2, log) => .ok (time', g2, log)
        | .error e => .error e := by
  obtain ⟨time', g', hA, h1, h2, h3, h4, h5, h6, _⟩ := AnimateParameters_ok DeltaT time g
  refine ⟨time', g', hA, h1, by rw [h4]; exact h2, h3, h4, h5, h6, ?_⟩
  intro fuel
  simp only [RenderModel, hA, bind, Except.bind]
  cases DrawModelTriangles fuel g' with
  | error e => rfl
  | ok r => rfl

end BunnyLOD
